import Mathlib

/-!
Verification of the minimax simultaneous-interpretation pipeline.

This file gives a shallow embedding of the four core components of the
repository and settles the claims of the specification against it:

* `AudioProcessor` (backend/services/audio_processor.py): the VAD-based
  utterance segmenter (`_process_frame`, `force_segment`).
* `MiniMaxClient` (backend/api_clients/minimax_client.py): the result
  computation of `_translate_sync` / `translate_text`.
* `T2VClient.synthesize_text` (backend/api_clients/t2v_client.py): the
  streaming receive loop of the synthesis protocol client.
* `TranslationQueue` (backend/services/translation_queue.py): the pipeline
  scheduler, modelled as a small-step transition system over explicit
  actions so that the interleaving of worker coroutines,
  `clear_pending_tasks` and `add_task` at the await suspension points is
  captured.

Conventions used throughout:

* Python strings are modelled as `List Char`; Python bytes as `List Nat`.
* Python `time.time()` is a monotone model clock (`Nat`), advanced by an
  explicit `tick` action.
* A Python value that may be absent (`None`) is an `Option`.
* Remote calls are driven by the environment: the action that resumes a
  suspended coroutine carries the value (or the exception / timeout) the
  remote call produced.
-/

namespace Interp

/-! # Utterance segmenter: AudioProcessor -/

/-- Configuration of `AudioProcessor` in frames.  In the source
`silence_threshold_frames = silence_threshold_ms / frame_duration_ms` and
`min_speech_frames = min_speech_duration_ms / frame_duration_ms`. -/
structure APConfig where
  silenceThresholdFrames : Nat
  minSpeechFrames : Nat
  deriving DecidableEq, Repr

/-- Mutable state of `AudioProcessor`: the buffered candidate-utterance
frames (`speech_frames`), the consecutive-silence counter
(`silence_frames`) and the speech-active flag (`speech_started`).
Frames are abstract tokens (`Nat`); only their count and identity matter
for the claims. -/
structure APState where
  speechFrames : List Nat
  silenceFrames : Nat
  speechStarted : Bool
  deriving DecidableEq, Repr

/-- Fresh processor state. -/
def apInit : APState := ⟨[], 0, false⟩

/-- Model of `_reset_state`: clears the buffer, the counter and the flag. -/
def apReset : APState := ⟨[], 0, false⟩

/-- Model of `_process_frame`.  `vadResult = some b` is the VAD classification of
the frame, `vadResult = none` models `self.vad.is_speech` raising: the
whole body sits in a try block whose handler only logs, so an exception
leaves the state untouched and emits nothing.  On finalisation the
returned segment is the buffered frame list; the source converts it to a
float-normalised sample array, which preserves the frame count. -/
def processFrame (cfg : APConfig) (vadResult : Option Bool) (frame : Nat)
    (s : APState) : APState × Option (List Nat) :=
  match vadResult with
  | none => (s, none)
  | some true =>
      ({ speechFrames := s.speechFrames ++ [frame], silenceFrames := 0,
         speechStarted := true }, none)
  | some false =>
      if s.speechStarted then
        let n := s.silenceFrames + 1
        let buf := if n ≤ 3 then s.speechFrames ++ [frame] else s.speechFrames
        if cfg.silenceThresholdFrames ≤ n then
          if cfg.minSpeechFrames ≤ buf.length then (apReset, some buf)
          else (apReset, none)
        else ({ speechFrames := buf, silenceFrames := n, speechStarted := true }, none)
      else (s, none)

/-- Model of `force_segment`: finalise the current buffer if it meets the minimum
speech-frame threshold, otherwise discard a non-empty buffer; an empty
buffer is left as is (the source only resets in the `elif` branch). -/
def forceSegment (cfg : APConfig) (s : APState) : APState × Option (List Nat) :=
  if cfg.minSpeechFrames ≤ s.speechFrames.length then (apReset, some s.speechFrames)
  else if s.speechFrames.isEmpty then (s, none)
  else (apReset, none)

/-- Feeding a sequence of frames (with their VAD outcomes) through
`_process_frame`, keeping only the state. -/
def runFrames (cfg : APConfig) (inputs : List (Option Bool × Nat)) (s : APState) : APState :=
  inputs.foldl (fun st i => (processFrame cfg i.1 i.2 st).1) s

/-- Segmenter state invariant: the speech-active flag is set exactly when
the buffer is non-empty, and the silence counter is zero while inactive. -/
def apInv (s : APState) : Prop :=
  (s.speechStarted = true → s.speechFrames ≠ []) ∧
  (s.speechStarted = false → s.silenceFrames = 0 ∧ s.speechFrames = [])

theorem apInv_init : apInv apInit := by
  constructor <;> simp [apInit]

theorem apInv_apReset : apInv apReset := by
  constructor <;> simp [apReset]

theorem apInv_processFrame (cfg : APConfig) (v : Option Bool) (f : Nat)
    (s : APState) (h : apInv s) : apInv (processFrame cfg v f s).1 := by
  obtain ⟨h1, h2⟩ := h
  match v with
  | none => exact ⟨h1, h2⟩
  | some true =>
      unfold apInv processFrame
      refine ⟨fun _ => by simp, fun hc => by simp at hc⟩
  | some false =>
      by_cases hs : s.speechStarted
      · have hne := h1 hs
        simp only [processFrame, hs, if_true]
        split_ifs
        all_goals try exact apInv_apReset
        all_goals refine ⟨fun _ => ?_, fun hc => by simp at hc⟩
        all_goals try simp
        all_goals exact hne
      · rw [Bool.not_eq_true] at hs
        simp only [processFrame, hs, Bool.false_eq_true, if_false]
        exact ⟨h1, h2⟩

theorem apInv_runFrames (cfg : APConfig) (inputs : List (Option Bool × Nat))
    (s : APState) (h : apInv s) : apInv (runFrames cfg inputs s) := by
  induction inputs generalizing s with
  | nil => exact h
  | cons i rest ih =>
      exact ih _ (apInv_processFrame cfg i.1 i.2 s h)

theorem forceSegment_aux (cfg : APConfig) (s : APState) (hinv : apInv s) :
    (∀ seg, (forceSegment cfg s).2 = some seg →
        cfg.minSpeechFrames ≤ seg.length) ∧
    (forceSegment cfg s).1 = apReset := by
  obtain ⟨sf, sc, st⟩ := s
  constructor
  · intro seg hseg
    by_cases hmin : cfg.minSpeechFrames ≤ sf.length
    · simp only [forceSegment, hmin, if_true] at hseg
      cases hseg
      exact hmin
    · simp only [forceSegment, hmin, if_false] at hseg
      by_cases he : sf.isEmpty <;> simp [he] at hseg
  · by_cases hmin : cfg.minSpeechFrames ≤ sf.length
    · simp [forceSegment, hmin]
    · simp only [forceSegment, hmin, if_false]
      by_cases he : sf.isEmpty
      · have hemp : sf = [] := by
          cases hf : sf with
          | nil => rfl
          | cons a t => rw [hf] at he; simp [List.isEmpty] at he
        have hstart : st = false := by
          by_contra hc
          simp only [Bool.not_eq_false] at hc
          exact (hinv.1 hc) hemp
        have hsil := (hinv.2 hstart).1
        simp only at hsil
        simp [he, apReset, hemp, hstart, hsil]
      · simp [he]

/-- C8: after any frame sequence, `force_segment` either returns a segment
whose frame count meets the minimum-speech-frame threshold or returns
nothing, and in every case the resulting state is fully reset. -/
theorem forceSegment_min_or_none (cfg : APConfig) (inputs : List (Option Bool × Nat)) :
    (∀ seg, (forceSegment cfg (runFrames cfg inputs apInit)).2 = some seg →
        cfg.minSpeechFrames ≤ seg.length) ∧
    (forceSegment cfg (runFrames cfg inputs apInit)).1 = apReset :=
  forceSegment_aux cfg _ (apInv_runFrames cfg inputs apInit apInv_init)

/-- C8 witness: a concrete run where a 2-frame buffer meets a threshold
of 2. -/
theorem forceSegment_min_or_none_witness :
    2 ≤ ([1, 2] : List Nat).length :=
  (forceSegment_min_or_none ⟨5, 2⟩ [(some true, 1), (some true, 2)]).1 [1, 2] (by decide)

/-- C9 amended: a frame on which the VAD classifier raises is dropped
entirely: no buffer append, no silence-counter change, no
finalise-or-discard check, no emission. -/
theorem vadError_frame_ignored (cfg : APConfig) (f : Nat) (s : APState) :
    processFrame cfg none f s = (s, none) := rfl

/-- C9 counterexample: with silence threshold 2 and minimum 1, after one
speech frame and one silence frame the counter is 1; a VAD-exception
frame leaves the state unchanged and emits nothing, whereas a frame
classified silence at the same state increments the counter to the
threshold and finalises the segment.  The exception frame is therefore
not treated like a silence frame. -/
theorem vadError_not_silence_counterexample :
    processFrame ⟨2, 1⟩ none 3
        (runFrames ⟨2, 1⟩ [(some true, 1), (some false, 2)] apInit) =
      (⟨[1, 2], 1, true⟩, none) ∧
    processFrame ⟨2, 1⟩ (some false) 3
        (runFrames ⟨2, 1⟩ [(some true, 1), (some false, 2)] apInit) =
      (apReset, some [1, 2, 3]) := by decide

/-! # Remote translator client: MiniMaxClient -/

/-- Python `str.strip()` on the default (whitespace) character set,
over strings modelled as `List Char`. -/
def pyStrip (l : List Char) : List Char :=
  ((l.dropWhile Char.isWhitespace).reverse.dropWhile Char.isWhitespace).reverse

/-- The translated text accumulated from the streamed chat-completion
deltas of `_translate_sync`: concatenation of the content chunks. -/
def accumulatedContent (chunks : List (List Char)) : List Char := chunks.flatten

/-- Result computation of `_translate_sync` after the streaming loop:
`if not translated_text.strip(): return text` (the original input,
unchanged) `else return translated_text.strip()`.  `translate_text` is a
thread-pool wrapper returning this same value. -/
def translateSync (text : List Char) (chunks : List (List Char)) : List Char :=
  let translated := accumulatedContent chunks
  if pyStrip translated = [] then text else pyStrip translated

/-- The scheduler failure check at translation_queue.py lines 227-228:
`if not translated_text or not translated_text.strip()`. -/
def translationEmptyCheck (r : List Char) : Bool :=
  decide (r = []) || decide (pyStrip r = [])

theorem dropWhile_head_false {p : Char → Bool} :
    ∀ (l : List Char) (a : Char) (t : List Char),
      l.dropWhile p = a :: t → p a = false := by
  intro l
  induction l with
  | nil => intro a t h; simp [List.dropWhile] at h
  | cons b l ih =>
      intro a t h
      rw [List.dropWhile_cons] at h
      by_cases hb : p b
      · simp [hb] at h; exact ih a t h
      · simp [hb] at h; simp [← h.1, hb]

theorem mem_dropWhile_imp_mem {p : Char → Bool} :
    ∀ (l : List Char) (c : Char), c ∈ l.dropWhile p → c ∈ l := by
  intro l
  induction l with
  | nil => intro c h; simp [List.dropWhile] at h
  | cons b l ih =>
      intro c h
      rw [List.dropWhile_cons] at h
      by_cases hb : p b
      · simp only [hb, if_true] at h
        exact List.mem_cons_of_mem b (ih c h)
      · simp only [hb, if_false] at h
        exact h

theorem pyStrip_eq_nil_iff (l : List Char) :
    pyStrip l = [] ↔ ∀ c ∈ l, c.isWhitespace := by
  unfold pyStrip
  rw [List.reverse_eq_nil_iff, List.dropWhile_eq_nil_iff]
  constructor
  · intro h c hc
    have hsplit := List.takeWhile_append_dropWhile (p := Char.isWhitespace) (l := l)
    rw [← hsplit] at hc
    rcases List.mem_append.mp hc with h1 | h2
    · exact List.mem_takeWhile_imp h1
    · exact h (c) (by simpa using h2)
  · intro h c hc
    rw [List.mem_reverse] at hc
    exact h c (mem_dropWhile_imp_mem l c hc)

theorem pyStrip_not_all_whitespace (l : List Char) (hne : pyStrip l ≠ []) :
    ¬ ∀ c ∈ pyStrip l, c.isWhitespace := by
  intro hall
  unfold pyStrip at hne hall
  cases hd : (l.dropWhile Char.isWhitespace).reverse.dropWhile Char.isWhitespace with
  | nil => rw [hd] at hne; simp at hne
  | cons a t =>
      have ha : Char.isWhitespace a = false := dropWhile_head_false _ a t hd
      have hmem : a ∈ ((l.dropWhile Char.isWhitespace).reverse.dropWhile
          Char.isWhitespace).reverse := by
        rw [hd]; simp
      have := hall a hmem
      rw [this] at ha
      cases ha

/-- C10: if the streamed response yields no content, `translate_text`
returns the original input text unchanged; and the value it returns can
only fail the scheduler empty-or-whitespace check when the input text
itself is empty or whitespace. -/
theorem translateSync_empty_input_only (text : List Char) (chunks : List (List Char)) :
    (accumulatedContent chunks = [] → translateSync text chunks = text) ∧
    (translationEmptyCheck (translateSync text chunks) = true →
      translationEmptyCheck text = true) := by
  constructor
  · intro h
    simp [translateSync, h, pyStrip]
  · intro h
    unfold translateSync at h
    by_cases hc : pyStrip (accumulatedContent chunks) = []
    · simpa [hc] using h
    · exfalso
      simp only [hc, if_false] at h
      unfold translationEmptyCheck at h
      rcases Bool.or_eq_true_iff.mp h with h1 | h1
      · exact hc (of_decide_eq_true h1)
      · have h2 := of_decide_eq_true h1
        rw [pyStrip_eq_nil_iff] at h2
        exact pyStrip_not_all_whitespace _ hc h2

/-- C10 witness: no streamed content means the original text comes back. -/
theorem translateSync_empty_input_only_witness :
    translateSync ['h', 'i'] [] = ['h', 'i'] :=
  (translateSync_empty_input_only ['h', 'i'] []).1 rfl

/-! # Synthesis protocol client: T2VClient.synthesize_text

The streaming receive loop is driven by the sequence of outcomes of
`websocket.recv`.  Audio payloads are decoded trying hex first and then
base64: a payload that neither decoder accepts raises, and the raise is
caught by the generic handler of the loop body, which breaks out of the
loop. -/

/-- An audio payload as seen by the decode code: `hexOk b` decodes by
`bytes.fromhex` to `b`; `b64Ok b` makes `bytes.fromhex` raise ValueError
and `base64.b64decode` succeed with `b`; `undecodable` makes both fail,
so the decode raises out of the audio block. -/
inductive Payload
  | hexOk (b : List Nat)
  | b64Ok (b : List Nat)
  | undecodable
  deriving DecidableEq, Repr

/-- Decode outcome: `decodePayload p = some b` when the hex-then-base64 decode yields
`b`; `none` when it raises. -/
def decodePayload : Payload → Option (List Nat)
  | .hexOk b => some b
  | .b64Ok b => some b
  | .undecodable => none

/-- One JSON message received on the synthesis socket: an optional
`data.audio` payload, an optional `extra_info.audio_format`, and an
optional `event` field. -/
structure T2VMsg where
  audio : Option Payload
  audioFormatInfo : Option String
  event : Option String
  deriving DecidableEq, Repr

/-- One outcome of the `recv` with inter-chunk timeout: a message, a
timeout (`asyncio.TimeoutError`), or a transport or JSON failure that
raises inside the loop body. -/
inductive RecvItem
  | msg (m : T2VMsg)
  | timeout
  | recvFail
  deriving DecidableEq, Repr

/-- One chunk-callback invocation: `(chunk_data, is_final, audio_format)`. -/
structure ChunkCall where
  bytes : List Nat
  final : Bool
  fmt : String
  deriving DecidableEq, Repr

/-- The loop state of `synthesize_text`: accumulated chunks, current
audio format, chunk count, and the last non-empty chunk with its format
(`last_chunk_info`). -/
structure LoopSt where
  chunks : List (List Nat)
  fmt : String
  total : Nat
  lastInfo : Option (List Nat × String)
  deriving DecidableEq, Repr

/-- How the receive loop ended.  `finished` is the explicit completion
event; `failed` is the `task_failed` event (returns None immediately);
`errBreak` is the generic exception handler breaking the loop;
`timeoutBreak` is the inter-chunk timeout treated as implicit
completion; `exhausted` is a modelling artifact for an input list that
ends without any terminating outcome (in the source the loop would
still be waiting on `recv`). -/
inductive LoopEnd
  | finished
  | failed
  | errBreak
  | timeoutBreak
  | exhausted
  deriving DecidableEq, Repr

/-- The audio block of the loop body: append the decoded chunk, bump the
count, pick up a format from `extra_info` if present, remember the chunk
as `last_chunk_info` when non-empty, and invoke the chunk callback with
`is_final=False`. -/
def audioStep (s : LoopSt) (b : List Nat) (fmtInfo : Option String) :
    ChunkCall × LoopSt :=
  let fmt1 := fmtInfo.getD s.fmt
  (⟨b, false, fmt1⟩,
   { chunks := s.chunks ++ [b], fmt := fmt1, total := s.total + 1,
     lastInfo := if b.isEmpty then s.lastInfo else some (b, fmt1) })

/-- The event checks at the end of the loop body.  On `task_finished`,
one extra callback with `is_final=True` is made: the remembered last
non-empty chunk if `total_chunks > 0 and last_chunk_info is not None`,
otherwise an explicit empty final chunk.  On `task_failed` the function
returns None at once. -/
def eventStep (s : LoopSt) (m : T2VMsg) (acc : List ChunkCall) :
    List ChunkCall × Option LoopEnd × LoopSt :=
  if m.event = some ("task_finished") then
    match s.lastInfo with
    | some (la, lf) =>
        if 0 < s.total then (acc ++ [⟨la, true, lf⟩], some .finished, s)
        else (acc ++ [⟨[], true, s.fmt⟩], some .finished, s)
    | none => (acc ++ [⟨[], true, s.fmt⟩], some .finished, s)
  else if m.event = some ("task_failed") then (acc, some .failed, s)
  else (acc, none, s)

/-- One received message processed by the loop body: decode/forward the
audio payload (an undecodable payload raises and the generic handler
breaks), then check the event field. -/
def stepMsg (s : LoopSt) (m : T2VMsg) : List ChunkCall × Option LoopEnd × LoopSt :=
  match m.audio with
  | some p =>
      match decodePayload p with
      | none => ([], some .errBreak, s)
      | some b =>
          let (c, s1) := audioStep s b m.audioFormatInfo
          eventStep s1 m [c]
  | none => eventStep s m []

/-- The receive loop of `synthesize_text`: returns the chunk-callback
invocations it makes, how it ended, and the final loop state.  On a
recv timeout with at least one chunk received, the last buffered chunk
is re-sent with `is_final=True` and the loop breaks. -/
def synthLoop : List RecvItem → LoopSt → List ChunkCall × LoopEnd × LoopSt
  | [], s => ([], .exhausted, s)
  | .timeout :: _, s =>
      if 0 < s.total then
        ([⟨(s.chunks.getLast?).getD [], true, s.fmt⟩], .timeoutBreak, s)
      else ([], .timeoutBreak, s)
  | .recvFail :: _, s => ([], .errBreak, s)
  | .msg m :: rest, s =>
      match stepMsg s m with
      | (cs, some e, s1) => (cs, e, s1)
      | (cs, none, s1) =>
          let r := synthLoop rest s1
          (cs ++ r.1, r.2.1, r.2.2)

/-- Initial loop state: no chunks, default format mp3. -/
def initLoop : LoopSt := ⟨[], "mp3", 0, none⟩

/-- Return value of `synthesize_text`: None after `task_failed` or when
no chunk was collected, otherwise the concatenated audio with its
format. -/
def synthesizeResult (items : List RecvItem) : Option (List Nat × String) :=
  let r := synthLoop items initLoop
  match r.2.1 with
  | .failed => none
  | _ => if r.2.2.chunks.isEmpty then none else some (r.2.2.chunks.flatten, r.2.2.fmt)

/-- The bytes of the last non-empty chunk of a chunk list, or `[]` when
all chunks (if any) are empty. -/
def lastNonEmptyChunk (chunks : List (List Nat)) : List Nat :=
  ((chunks.filter (fun b => !b.isEmpty)).getLast?).getD []

/-- Loop-state invariant tying `last_chunk_info` to the collected
chunks: it remembers exactly the last non-empty chunk, and the chunk
count equals the number of collected chunks. -/
def loopInv (s : LoopSt) : Prop :=
  s.lastInfo.map Prod.fst = (s.chunks.filter (fun b => !b.isEmpty)).getLast? ∧
  s.total = s.chunks.length

theorem loopInv_init : loopInv initLoop := by
  constructor <;> simp [initLoop]

theorem loopInv_audioStep (s : LoopSt) (b : List Nat) (fi : Option String)
    (h : loopInv s) : loopInv (audioStep s b fi).2 := by
  obtain ⟨h1, h2⟩ := h
  constructor
  · by_cases hb : b.isEmpty
    · have hbe : b = [] := by
        cases b with
        | nil => rfl
        | cons a t => simp [List.isEmpty] at hb
      simp [audioStep, hb, hbe, List.filter_append, h1]
    · simp [audioStep, hb, List.filter_append]
  · simp [audioStep, h2]

theorem lastInfo_some_facts (s : LoopSt) (h : loopInv s) (la : List Nat)
    (lf : String) (he : s.lastInfo = some (la, lf)) :
    lastNonEmptyChunk s.chunks = la ∧ 0 < s.total := by
  obtain ⟨h1, h2⟩ := h
  rw [he] at h1
  rw [show ((some (la, lf)).map Prod.fst : Option (List Nat)) = some la from rfl] at h1
  constructor
  · unfold lastNonEmptyChunk
    rw [← h1]
    rfl
  · rw [h2]
    cases hc : s.chunks with
    | nil => rw [hc] at h1; simp at h1
    | cons a t => simp [hc]

theorem lastInfo_none_facts (s : LoopSt) (h : loopInv s)
    (he : s.lastInfo = none) : lastNonEmptyChunk s.chunks = [] := by
  obtain ⟨h1, h2⟩ := h
  rw [he] at h1
  rw [show ((none : Option (List Nat × String)).map Prod.fst : Option (List Nat)) = none from rfl] at h1
  unfold lastNonEmptyChunk
  rw [← h1]
  rfl


theorem eventStep_none (s0 : LoopSt) (m : T2VMsg) (acc cs : List ChunkCall)
    (s1 : LoopSt) (heq : eventStep s0 m acc = (cs, none, s1)) :
    cs = acc ∧ s1 = s0 := by
  unfold eventStep at heq
  by_cases hf : m.event = some ("task_finished")
  · simp only [hf, if_true] at heq
    cases hli : s0.lastInfo with
    | some p =>
        obtain ⟨la, lf⟩ := p
        rw [hli] at heq
        by_cases htot : 0 < s0.total <;> simp [htot] at heq
    | none => rw [hli] at heq; simp at heq
  · simp only [hf, if_false] at heq
    by_cases hf2 : m.event = some ("task_failed")
    · simp [hf2] at heq
    · simp only [hf2, if_false] at heq
      rw [Prod.mk.injEq, Prod.mk.injEq] at heq
      exact ⟨heq.1.symm, heq.2.2.symm⟩

theorem eventStep_finished (s0 : LoopSt) (m : T2VMsg) (acc cs : List ChunkCall)
    (s1 : LoopSt) (hinv : loopInv s0)
    (heq : eventStep s0 m acc = (cs, some LoopEnd.finished, s1)) :
    ∃ fin, cs = acc ++ [fin] ∧ fin.final = true ∧
      fin.bytes = lastNonEmptyChunk s1.chunks := by
  unfold eventStep at heq
  by_cases hf : m.event = some ("task_finished")
  · simp only [hf, if_true] at heq
    cases hli : s0.lastInfo with
    | some p =>
        obtain ⟨la, lf⟩ := p
        obtain ⟨hlast, htot⟩ := lastInfo_some_facts s0 hinv la lf hli
        rw [hli] at heq
        simp only [htot, if_true] at heq
        rw [Prod.mk.injEq, Prod.mk.injEq] at heq
        obtain ⟨hcs, -, hs⟩ := heq
        refine ⟨⟨la, true, lf⟩, hcs.symm, rfl, ?_⟩
        rw [← hs, hlast]
    | none =>
        rw [hli] at heq
        have hlast := lastInfo_none_facts s0 hinv hli
        rw [Prod.mk.injEq, Prod.mk.injEq] at heq
        obtain ⟨hcs, -, hs⟩ := heq
        refine ⟨⟨[], true, s0.fmt⟩, hcs.symm, rfl, ?_⟩
        rw [← hs, hlast]
  · simp only [hf, if_false] at heq
    by_cases hf2 : m.event = some ("task_failed")
    · simp [hf2] at heq
    · simp only [hf2, if_false] at heq
      rw [Prod.mk.injEq, Prod.mk.injEq] at heq
      exact absurd heq.2.1 (by simp)

theorem stepMsg_finished (s : LoopSt) (m : T2VMsg) (cs : List ChunkCall)
    (s1 : LoopSt) (hinv : loopInv s)
    (heq : stepMsg s m = (cs, some LoopEnd.finished, s1)) :
    ∃ pre fin, cs = pre ++ [fin] ∧ fin.final = true ∧
      (∀ c ∈ pre, c.final = false) ∧ fin.bytes = lastNonEmptyChunk s1.chunks := by
  unfold stepMsg at heq
  cases hau : m.audio with
  | some p =>
      rw [hau] at heq
      simp only at heq
      cases hp : decodePayload p with
      | none =>
          rw [hp] at heq
          simp only at heq
          rw [Prod.mk.injEq, Prod.mk.injEq] at heq
          exact absurd heq.2.1 (by simp)
      | some b =>
          rw [hp] at heq
          simp only at heq
          have hinv1 : loopInv (audioStep s b m.audioFormatInfo).2 :=
            loopInv_audioStep s b m.audioFormatInfo hinv
          obtain ⟨fin, hcs, hfin, hbytes⟩ :=
            eventStep_finished _ m [(audioStep s b m.audioFormatInfo).1] cs s1 hinv1 heq
          exact ⟨[(audioStep s b m.audioFormatInfo).1], fin, hcs, hfin,
            (by intro c hc; rw [List.mem_singleton] at hc; rw [hc]; rfl), hbytes⟩
  | none =>
      rw [hau] at heq
      obtain ⟨fin, hcs, hfin, hbytes⟩ :=
        eventStep_finished s m [] cs s1 hinv heq
      exact ⟨[], fin, hcs, hfin, (by intro c hc; simp at hc), hbytes⟩

theorem stepMsg_continue (s : LoopSt) (m : T2VMsg) (cs : List ChunkCall)
    (s1 : LoopSt) (hinv : loopInv s)
    (heq : stepMsg s m = (cs, none, s1)) :
    (∀ c ∈ cs, c.final = false) ∧ loopInv s1 := by
  unfold stepMsg at heq
  cases hau : m.audio with
  | some p =>
      rw [hau] at heq
      simp only at heq
      cases hp : decodePayload p with
      | none =>
          rw [hp] at heq
          simp at heq
      | some b =>
          rw [hp] at heq
          simp only at heq
          obtain ⟨hcs, hs1⟩ := eventStep_none _ m _ cs s1 heq
          subst hcs
          subst hs1
          refine ⟨?_, loopInv_audioStep s b m.audioFormatInfo hinv⟩
          intro c hc
          rw [List.mem_singleton] at hc
          rw [hc]
          rfl
  | none =>
      rw [hau] at heq
      obtain ⟨hcs, hs1⟩ := eventStep_none s m [] cs s1 heq
      subst hcs
      subst hs1
      exact ⟨by intro c hc; simp at hc, hinv⟩

theorem synthLoop_finished_aux :
    ∀ (items : List RecvItem) (s : LoopSt), loopInv s →
    ∀ calls s', synthLoop items s = (calls, LoopEnd.finished, s') →
    ∃ pre fin, calls = pre ++ [fin] ∧ fin.final = true ∧
      (∀ c ∈ pre, c.final = false) ∧ fin.bytes = lastNonEmptyChunk s'.chunks := by
  intro items
  induction items with
  | nil =>
      intro s hinv calls s' heq
      simp only [synthLoop] at heq
      rw [Prod.mk.injEq, Prod.mk.injEq] at heq
      exact absurd heq.2.1 (by simp)
  | cons item rest ih =>
      intro s hinv calls s' heq
      match item with
      | RecvItem.timeout =>
          simp only [synthLoop] at heq
          by_cases ht : 0 < s.total <;>
            simp only [ht, if_true, if_false] at heq <;>
            · rw [Prod.mk.injEq, Prod.mk.injEq] at heq
              exact absurd heq.2.1 (by simp)
      | RecvItem.recvFail =>
          simp only [synthLoop] at heq
          rw [Prod.mk.injEq, Prod.mk.injEq] at heq
          exact absurd heq.2.1 (by simp)
      | RecvItem.msg m =>
          simp only [synthLoop] at heq
          rcases hsm : stepMsg s m with ⟨cs, oe, s1⟩
          rw [hsm] at heq
          cases oe with
          | some e0 =>
              simp only at heq
              rw [Prod.mk.injEq, Prod.mk.injEq] at heq
              obtain ⟨hcs, he, hs⟩ := heq
              subst hcs
              subst hs
              rw [he] at hsm
              exact stepMsg_finished s m cs s1 hinv hsm
          | none =>
              simp only at heq
              obtain ⟨hnofin, hinv1⟩ := stepMsg_continue s m cs s1 hinv hsm
              rcases hr : synthLoop rest s1 with ⟨calls2, e2, s2⟩
              rw [hr] at heq
              simp only at heq
              rw [Prod.mk.injEq, Prod.mk.injEq] at heq
              obtain ⟨hcalls, he2, hs2⟩ := heq
              subst he2
              subst hs2
              obtain ⟨pre2, fin, hc2, hfin, hpre2, hbytes⟩ := ih s1 hinv1 calls2 s2 hr
              refine ⟨cs ++ pre2, fin, ?_, hfin, ?_, hbytes⟩
              · rw [← hcalls, hc2, List.append_assoc]
              · intro c hc
                rcases List.mem_append.mp hc with h1 | h1
                · exact hnofin c h1
                · exact hpre2 c h1

/-- C3 amended: whenever the receive loop of `synthesize_text` ends with
the explicit completion event, exactly one callback invocation has
`is_final=true`, it is the last one delivered, and it carries the bytes
of the last NON-EMPTY chunk received (an empty payload when no
non-empty chunk was received, in particular when no chunk at all was
received). -/
theorem synthesize_final_chunk (items : List RecvItem) (calls : List ChunkCall)
    (s' : LoopSt) (heq : synthLoop items initLoop = (calls, LoopEnd.finished, s')) :
    ∃ pre fin, calls = pre ++ [fin] ∧ fin.final = true ∧
      (∀ c ∈ pre, c.final = false) ∧ fin.bytes = lastNonEmptyChunk s'.chunks :=
  synthLoop_finished_aux items initLoop loopInv_init calls s' heq

/-- C3 witness: a concrete completed stream with one chunk. -/
theorem synthesize_final_chunk_witness :
    ∃ pre fin, (synthLoop
        [RecvItem.msg ⟨some (Payload.hexOk [9]), none, none⟩,
         RecvItem.msg ⟨none, none, some ("task_finished")⟩] initLoop).1 =
        pre ++ [fin] ∧ fin.final = true ∧
      (∀ c ∈ pre, c.final = false) ∧
      fin.bytes = lastNonEmptyChunk (synthLoop
        [RecvItem.msg ⟨some (Payload.hexOk [9]), none, none⟩,
         RecvItem.msg ⟨none, none, some ("task_finished")⟩] initLoop).2.2.chunks :=
  synthesize_final_chunk _ _ _ rfl

/-- C3 counterexample: stream the chunks `[1,2]` then `[]` (an empty
audio payload is well-formed hex) and complete.  The loop ends with the
completion event and a chunk was received, but the final callback
re-sends `[1,2]`, not the bytes of the last received chunk (`[]`): the
claim that the final callback carries the last received chunk bytes and
is never an empty marker once a chunk was received is false (streaming
only empty chunks even yields an empty-payload final callback). -/
theorem synthesize_final_chunk_counterexample :
    (synthLoop
        [RecvItem.msg ⟨some (Payload.hexOk [1, 2]), none, none⟩,
         RecvItem.msg ⟨some (Payload.hexOk []), none, none⟩,
         RecvItem.msg ⟨none, none, some ("task_finished")⟩] initLoop).2.1 =
      LoopEnd.finished ∧
    (synthLoop
        [RecvItem.msg ⟨some (Payload.hexOk [1, 2]), none, none⟩,
         RecvItem.msg ⟨some (Payload.hexOk []), none, none⟩,
         RecvItem.msg ⟨none, none, some ("task_finished")⟩] initLoop).2.2.chunks.getLast? =
      some [] ∧
    (synthLoop
        [RecvItem.msg ⟨some (Payload.hexOk [1, 2]), none, none⟩,
         RecvItem.msg ⟨some (Payload.hexOk []), none, none⟩,
         RecvItem.msg ⟨none, none, some ("task_finished")⟩] initLoop).1.getLast? =
      some ⟨[1, 2], true, "mp3"⟩ ∧
    ([1, 2] : List Nat) ≠ ([] : List Nat) := by decide

/-- C7 amended: a message whose audio payload decodes neither as hex nor
as base64 raises inside the loop body; the generic exception handler
logs and BREAKS, so the remaining messages are never processed and no
callback is invoked for this or any later message. -/
theorem undecodable_chunk_aborts_loop (m : T2VMsg) (rest : List RecvItem)
    (s : LoopSt) (h : m.audio = some Payload.undecodable) :
    synthLoop (RecvItem.msg m :: rest) s = ([], LoopEnd.errBreak, s) := by
  simp only [synthLoop, stepMsg, h, decodePayload]

/-- C7 amended witness. -/
theorem undecodable_chunk_aborts_loop_witness :
    synthLoop [RecvItem.msg ⟨some Payload.undecodable, none, none⟩] initLoop =
      ([], LoopEnd.errBreak, initLoop) :=
  undecodable_chunk_aborts_loop ⟨some Payload.undecodable, none, none⟩ [] initLoop rfl

/-- C7 counterexample: an undecodable payload followed by a perfectly
good chunk and a completion event.  The claim predicts the bad chunk is
dropped and the loop continues (so the chunk `[7]` would be collected
and delivered and the stream would finish); the code instead breaks out
of the loop at the bad payload: nothing is delivered, no chunk is
collected, and `synthesize_text` returns None. -/
theorem undecodable_chunk_counterexample :
    (synthLoop
        [RecvItem.msg ⟨some Payload.undecodable, none, none⟩,
         RecvItem.msg ⟨some (Payload.hexOk [7]), none, none⟩,
         RecvItem.msg ⟨none, none, some ("task_finished")⟩] initLoop) =
      ([], LoopEnd.errBreak, initLoop) ∧
    synthesizeResult
        [RecvItem.msg ⟨some Payload.undecodable, none, none⟩,
         RecvItem.msg ⟨some (Payload.hexOk [7]), none, none⟩,
         RecvItem.msg ⟨none, none, some ("task_finished")⟩] = none := by decide

/-! # Pipeline scheduler: TranslationQueue

The scheduler is modelled as a transition system.  One `QAction` is one
atomic stretch of Python code between two await suspension points (the
event loop is single threaded, so such stretches are atomic).  The task
store `tasks` holds every task object ever created, indexed by its
identity (`add_task` hands out consecutive indices standing for the
uuid4 strings); `pending`, `activeIds` and `completedIds` are the id
contents of `pending_queue`, `active_tasks` and `completed_tasks`.
`inflight` records, for every `_process_task` coroutine currently
suspended in a remote call, the id of its task and which call it is
suspended in.  `trace` is a ghost log (newest first) of the callback
invocations the scheduler makes, used for the ordering claims. -/

/-- Statuses of `TaskStatus` in translation_queue.py. -/
inductive TaskStatus
  | pending
  | processing
  | completed
  | failed
  | timeout
  deriving DecidableEq, Repr

/-- Model of `TranslationTask`.  `result` is `some audio` once set, where
`audio = some n` records an `audio_size` of `n` and `audio = none` the
translation-only result taken when synthesis returned None. -/
structure TranslationTask where
  id : Nat
  text : List Char
  targetLanguage : List Char
  status : TaskStatus
  createdAt : Nat
  startedAt : Option Nat
  completedAt : Option Nat
  result : Option (Option Nat)
  error : Option String
  timeoutSeconds : Nat
  deriving DecidableEq, Repr

/-- Which remote call a `_process_task` coroutine is suspended in. -/
inductive WorkerPc
  | atTranslate
  | atSynthesize
  deriving DecidableEq, Repr

/-- Ghost trace events: one callback invocation each. -/
inductive QEvent
  | translationDone (tid : Nat)
  | audioChunk (tid : Nat) (final : Bool)
  deriving DecidableEq, Repr

/-- Scheduler configuration: `max_concurrent` (both the worker count and
the pending-queue capacity bound used by `add_task`), `default_timeout`,
and whether the translation / audio-chunk callbacks are registered. -/
structure QConfig where
  maxConcurrent : Nat
  defaultTimeout : Nat
  translationCallbackSet : Bool
  audioChunkCallbackSet : Bool
  deriving DecidableEq, Repr

/-- The scheduler state. -/
structure QState where
  cfg : QConfig
  now : Nat
  tasks : List TranslationTask
  pending : List Nat
  activeIds : List Nat
  completedIds : List Nat
  inflight : List (Nat × WorkerPc)
  trace : List QEvent
  deriving DecidableEq, Repr

/-- One atomic step of the system.  The resume actions
(`translateReturn` through `synthTimeout`) carry the outcome of the awaited
remote call, chosen by the environment; `synthChunk` is one streaming
chunk-callback invocation made while the synthesis call is in flight. -/
inductive QAction
  | tick (dt : Nat)
  | addTask (text targetLanguage : List Char) (timeout : Option Nat)
  | pickTask
  | translateReturn (tid : Nat) (translated : List Char)
  | translateRaise (tid : Nat) (msg : String)
  | translateTimeout (tid : Nat)
  | synthChunk (tid : Nat) (final : Bool)
  | synthReturn (tid : Nat) (audio : Option Nat)
  | synthRaise (tid : Nat) (msg : String)
  | synthTimeout (tid : Nat)
  | clearPendingTasks
  deriving DecidableEq, Repr

/-- Update the task object with identity `tid` in the store (mutating a
field of the shared Python object). -/
def modifyTask : List TranslationTask → Nat → (TranslationTask → TranslationTask) →
    List TranslationTask
  | [], _, _ => []
  | t :: ts, 0, f => f t :: ts
  | t :: ts, n + 1, f => t :: modifyTask ts n f

/-- Mutation `task.status = FAILED; task.error = msg`. -/
def markFailed (msg : String) (t : TranslationTask) : TranslationTask :=
  { t with status := TaskStatus.failed, error := some msg }

/-- Mutation `task.status = TIMEOUT; task.error = msg`. -/
def markTimedOut (msg : String) (t : TranslationTask) : TranslationTask :=
  { t with status := TaskStatus.timeout, error := some msg }

/-- The `finally` block of `_process_task` combined with the status
update of the branch that reached it: apply `f` to the task, remove the
task from `active_tasks`, store it in `completed_tasks`, and retire the
coroutine. -/
def finishTask (s : QState) (tid : Nat) (f : TranslationTask → TranslationTask) :
    QState :=
  { s with tasks := modifyTask s.tasks tid f,
           activeIds := s.activeIds.erase tid,
           completedIds := if tid ∈ s.completedIds then s.completedIds
                           else tid :: s.completedIds,
           inflight := s.inflight.filter (fun p => p.1 != tid) }

/-- Model of `_cleanup_old_tasks`: drop completed entries whose age since
creation exceeds 300 seconds. -/
def cleanupOldTasks (s : QState) : QState :=
  { s with completedIds := s.completedIds.filter (fun tid =>
      match s.tasks.get? tid with
      | some t => !(decide (300 < s.now - t.createdAt))
      | none => true) }

/-- The overflow check of `add_task`: when `pending_queue.qsize()` has
reached `max_concurrent`, the oldest pending task is pulled off the
queue and marked FAILED with the error text Queue overflow.  With a non-empty queue
the 0.1 second `wait_for` around the `get` returns immediately (single
threaded loop); the `TimeoutError: pass` arm is reachable only for an
empty queue. -/
def evictIfFull (s : QState) : QState :=
  if s.cfg.maxConcurrent ≤ s.pending.length then
    match s.pending with
    | [] => s
    | hd :: rest =>
        { s with tasks := modifyTask s.tasks hd (markFailed ("Queue overflow")),
                 pending := rest }
  else s

/-- The final `put` of `add_task`: the freshly created task (status
PENDING, `created_at` now) is appended to the store and to the queue.
Its identity, `s.tasks.length`, is the value `add_task` returns. -/
def appendNew (s : QState) (text tl : List Char) (timeout : Option Nat) : QState :=
  { s with
      tasks := s.tasks ++ [{
        id := s.tasks.length
        text := text
        targetLanguage := tl
        status := TaskStatus.pending
        createdAt := s.now
        startedAt := none
        completedAt := none
        result := none
        error := none
        timeoutSeconds := timeout.getD s.cfg.defaultTimeout }]
      pending := s.pending ++ [s.tasks.length] }

/-- Model of `add_task`: create the task, clean up old completed tasks, evict the
oldest pending task when the queue is at capacity, then enqueue the new
task. -/
def stepAddTask (s : QState) (text tl : List Char) (timeout : Option Nat) : QState :=
  appendNew (evictIfFull (cleanupOldTasks s)) text tl timeout

/-- A worker pulling the head of the queue (`_worker`): a task whose age
already exceeds its timeout is marked TIMEOUT and skipped (stored
nowhere); otherwise `_process_task` begins: status PROCESSING,
`started_at` set, task put in `active_tasks`, coroutine suspended in the
translation call. -/
def stepPickTask (s : QState) : QState :=
  match s.pending with
  | [] => s
  | tid :: rest =>
      match s.tasks.get? tid with
      | none => { s with pending := rest }
      | some t =>
          if t.timeoutSeconds < s.now - t.createdAt then
            { s with pending := rest,
                     tasks := modifyTask s.tasks tid
                       (markTimedOut ("Task timeout before processing")) }
          else
            { s with pending := rest,
                     tasks := modifyTask s.tasks tid (fun t0 =>
                       { t0 with status := TaskStatus.processing,
                                 startedAt := some s.now }),
                     activeIds := tid :: s.activeIds,
                     inflight := (tid, WorkerPc.atTranslate) :: s.inflight }

/-- Move the coroutine of `tid` to program counter `pc`. -/
def setPc (infl : List (Nat × WorkerPc)) (tid : Nat) (pc : WorkerPc) :
    List (Nat × WorkerPc) :=
  infl.map (fun p => if p.1 = tid then (p.1, pc) else p)

/-- The translation call returns.  An empty-or-whitespace result raises
an exception (text: Translation returned empty result), which the except
branch turns into FAILED followed by the finally block.  Otherwise the translation
callback is invoked and awaited (when registered) and the coroutine
proceeds to the synthesis call. -/
def stepTranslateReturn (s : QState) (tid : Nat) (translated : List Char) : QState :=
  if (tid, WorkerPc.atTranslate) ∈ s.inflight then
    if translationEmptyCheck translated then
      finishTask s tid (markFailed ("Translation returned empty result"))
    else
      let s1 := if s.cfg.translationCallbackSet then
          { s with trace := QEvent.translationDone tid :: s.trace }
        else s
      { s1 with inflight := setPc s1.inflight tid WorkerPc.atSynthesize }
  else s

/-- The translation call raises (`Exception` branch): FAILED with the
exception text, then the finally block. -/
def stepTranslateRaise (s : QState) (tid : Nat) (msg : String) : QState :=
  if (tid, WorkerPc.atTranslate) ∈ s.inflight then
    finishTask s tid (markFailed msg)
  else s

/-- The `asyncio.wait_for` around the translation call times out:
TIMEOUT with the timeout message, then the finally block. -/
def stepTranslateTimeout (s : QState) (tid : Nat) : QState :=
  if (tid, WorkerPc.atTranslate) ∈ s.inflight then
    finishTask s tid (fun t => markTimedOut
      ("Task timeout after " ++ toString t.timeoutSeconds ++ "s") t)
  else s

/-- One streaming chunk forwarded by `chunk_callback` to the registered
`audio_chunk_callback` while the synthesis call is in flight. -/
def stepSynthChunk (s : QState) (tid : Nat) (final : Bool) : QState :=
  if (tid, WorkerPc.atSynthesize) ∈ s.inflight then
    if s.cfg.audioChunkCallbackSet then
      { s with trace := QEvent.audioChunk tid final :: s.trace }
    else s
  else s

/-- The synthesis call returns (`audio = none` models
`text_to_speech` returning None, which still completes the task):
COMPLETED, `completed_at` set, result recorded, then the finally
block. -/
def stepSynthReturn (s : QState) (tid : Nat) (audio : Option Nat) : QState :=
  if (tid, WorkerPc.atSynthesize) ∈ s.inflight then
    finishTask s tid (fun t =>
      { t with status := TaskStatus.completed, completedAt := some s.now,
               result := some audio })
  else s

/-- The synthesis phase raises: FAILED, then the finally block. -/
def stepSynthRaise (s : QState) (tid : Nat) (msg : String) : QState :=
  if (tid, WorkerPc.atSynthesize) ∈ s.inflight then
    finishTask s tid (markFailed msg)
  else s

/-- The `asyncio.wait_for` around the synthesis call times out. -/
def stepSynthTimeout (s : QState) (tid : Nat) : QState :=
  if (tid, WorkerPc.atSynthesize) ∈ s.inflight then
    finishTask s tid (fun t => markTimedOut
      ("Task timeout after " ++ toString t.timeoutSeconds ++ "s") t)
  else s

/-- Mark every task in `ids` failed with error `msg` (the loops of
`clear_pending_tasks`). -/
def markAllFailed (ts : List TranslationTask) (ids : List Nat) (msg : String) :
    List TranslationTask :=
  ids.foldl (fun acc tid => modifyTask acc tid (markFailed msg)) ts

/-- Model of `clear_pending_tasks`: drain the pending queue marking each
task FAILED with error text Task cleared by user, mark every active task
FAILED with error text Task cancelled by user (without removing it from
`active_tasks`), and clear `completed_tasks`.  The suspended coroutines
are not touched. -/
def stepClear (s : QState) : QState :=
  { s with tasks := markAllFailed (markAllFailed s.tasks s.pending ("Task cleared by user"))
             s.activeIds ("Task cancelled by user"),
           pending := [],
           completedIds := [] }

/-- The transition function. -/
def step (s : QState) : QAction → QState
  | QAction.tick dt => { s with now := s.now + dt }
  | QAction.addTask text tl timeout => stepAddTask s text tl timeout
  | QAction.pickTask => stepPickTask s
  | QAction.translateReturn tid tr => stepTranslateReturn s tid tr
  | QAction.translateRaise tid msg => stepTranslateRaise s tid msg
  | QAction.translateTimeout tid => stepTranslateTimeout s tid
  | QAction.synthChunk tid final => stepSynthChunk s tid final
  | QAction.synthReturn tid audio => stepSynthReturn s tid audio
  | QAction.synthRaise tid msg => stepSynthRaise s tid msg
  | QAction.synthTimeout tid => stepSynthTimeout s tid
  | QAction.clearPendingTasks => stepClear s

/-- The scheduler state reached from a fresh queue after `acts`. -/
def runQ (cfg : QConfig) (acts : List QAction) : QState :=
  acts.foldl step ⟨cfg, 0, [], [], [], [], [], []⟩

/-- The status of the task object with identity `tid` (the Python object
exists and keeps its fields even when no queue collection references
it). -/
def statusOf (s : QState) (tid : Nat) : Option TaskStatus :=
  (s.tasks.get? tid).map (fun t => t.status)

/-- The dictionary built by `get_task_status`. -/
structure TaskSnapshot where
  id : Nat
  status : TaskStatus
  text : List Char
  targetLanguage : List Char
  createdAt : Nat
  startedAt : Option Nat
  completedAt : Option Nat
  duration : Option Nat
  error : Option String
  result : Option (Option Nat)
  deriving DecidableEq, Repr

/-- Snapshot of one task (text truncated to 100 characters). -/
def snapshotOf (t : TranslationTask) : TaskSnapshot :=
  { id := t.id, status := t.status,
    text := if 100 < t.text.length
            then t.text.take 100 ++ ['.', '.', '.'] else t.text,
    targetLanguage := t.targetLanguage, createdAt := t.createdAt,
    startedAt := t.startedAt, completedAt := t.completedAt,
    duration := match t.startedAt, t.completedAt with
                | some a, some b => some (b - a)
                | _, _ => none,
    error := t.error, result := t.result }

/-- Model of `get_task_status`: look in `active_tasks`, then `completed_tasks`,
else not found. -/
def getTaskStatus (s : QState) (tid : Nat) : Option TaskSnapshot :=
  if tid ∈ s.activeIds then (s.tasks.get? tid).map snapshotOf
  else if tid ∈ s.completedIds then (s.tasks.get? tid).map snapshotOf
  else none

/-- Model of `get_queue_stats`. -/
structure QueueStats where
  pendingCount : Nat
  activeCount : Nat
  completedCount : Nat
  maxConcurrent : Nat
  deriving DecidableEq, Repr

def getQueueStats (s : QState) : QueueStats :=
  ⟨s.pending.length, s.activeIds.length, s.completedIds.length, s.cfg.maxConcurrent⟩

/-! ## Store helper lemmas -/

theorem modifyTask_length (ts : List TranslationTask) (tid : Nat)
    (f : TranslationTask → TranslationTask) :
    (modifyTask ts tid f).length = ts.length := by
  induction ts generalizing tid with
  | nil => rfl
  | cons t ts ih =>
      cases tid with
      | zero => rfl
      | succ n => simp [modifyTask, ih]

theorem modifyTask_get_self (ts : List TranslationTask) (tid : Nat)
    (f : TranslationTask → TranslationTask) :
    (modifyTask ts tid f).get? tid = (ts.get? tid).map f := by
  induction ts generalizing tid with
  | nil => cases tid <;> rfl
  | cons t ts ih =>
      cases tid with
      | zero => rfl
      | succ n => simpa [modifyTask] using ih n

theorem modifyTask_get_other (ts : List TranslationTask) (tid j : Nat)
    (f : TranslationTask → TranslationTask) (h : j ≠ tid) :
    (modifyTask ts tid f).get? j = ts.get? j := by
  induction ts generalizing tid j with
  | nil => cases tid <;> rfl
  | cons t ts ih =>
      cases tid with
      | zero =>
          cases j with
          | zero => exact absurd rfl h
          | succ m => rfl
      | succ n =>
          cases j with
          | zero => rfl
          | succ m =>
              have hm : m ≠ n := fun hc => h (by rw [hc])
              simpa [modifyTask] using ih n m hm

theorem mem_modifyTask (ts : List TranslationTask) (tid : Nat)
    (f : TranslationTask → TranslationTask) (t' : TranslationTask)
    (h : t' ∈ modifyTask ts tid f) :
    t' ∈ ts ∨ ∃ t0, ts.get? tid = some t0 ∧ t' = f t0 := by
  rcases List.mem_iff_get?.mp h with ⟨n, hn⟩
  by_cases hj : n = tid
  · subst hj
    rw [modifyTask_get_self] at hn
    cases hget : ts.get? n with
    | none => rw [hget] at hn; simp at hn
    | some t0 =>
        rw [hget] at hn
        simp only [Option.map_some', Option.some.injEq] at hn
        exact Or.inr ⟨t0, rfl, hn.symm⟩
  · rw [modifyTask_get_other ts tid n f hj] at hn
    exact Or.inl (List.get?_mem hn)

theorem markFailed_idem (msg : String) (t : TranslationTask) :
    markFailed msg (markFailed msg t) = markFailed msg t := rfl

theorem markAllFailed_get (ts : List TranslationTask) (ids : List Nat)
    (msg : String) (j : Nat) :
    (markAllFailed ts ids msg).get? j =
      if j ∈ ids then (ts.get? j).map (markFailed msg) else ts.get? j := by
  induction ids generalizing ts with
  | nil => simp [markAllFailed]
  | cons i rest ih =>
      have hstep : markAllFailed ts (i :: rest) msg =
          markAllFailed (modifyTask ts i (markFailed msg)) rest msg := rfl
      rw [hstep, ih]
      by_cases hji : j = i
      · subst hji
        rw [modifyTask_get_self]
        by_cases hjr : j ∈ rest
        · simp only [hjr, if_true, List.mem_cons, true_or, if_pos (Or.inl rfl)]
          cases ts.get? j <;> simp [markFailed]
        · simp [hjr, List.mem_cons]
      · rw [modifyTask_get_other ts i j (markFailed msg) hji]
        by_cases hjr : j ∈ rest
        · simp [hjr, hji]
        · simp [hjr, hji]

theorem markAllFailed_length (ts : List TranslationTask) (ids : List Nat)
    (msg : String) : (markAllFailed ts ids msg).length = ts.length := by
  induction ids generalizing ts with
  | nil => rfl
  | cons i rest ih =>
      have hstep : markAllFailed ts (i :: rest) msg =
          markAllFailed (modifyTask ts i (markFailed msg)) rest msg := rfl
      rw [hstep, ih, modifyTask_length]

theorem mem_markAllFailed (ts : List TranslationTask) (ids : List Nat)
    (msg : String) (t' : TranslationTask) (h : t' ∈ markAllFailed ts ids msg) :
    ∃ t0, t0 ∈ ts ∧ (t' = t0 ∨ t' = markFailed msg t0) := by
  rcases List.mem_iff_get?.mp h with ⟨n, hn⟩
  rw [markAllFailed_get] at hn
  by_cases hni : n ∈ ids
  · rw [if_pos hni] at hn
    cases hget : ts.get? n with
    | none => rw [hget] at hn; simp at hn
    | some t0 =>
        rw [hget] at hn
        simp only [Option.map_some', Option.some.injEq] at hn
        exact ⟨t0, List.get?_mem hget, Or.inr hn.symm⟩
  · rw [if_neg hni] at hn
    exact ⟨t', List.get?_mem hn, Or.inl rfl⟩

/-! ## Scheduler invariant -/

/-- Every audio-chunk callback in the (newest-first) trace is preceded
chronologically by the translation-done callback of the same task. -/
def chunkTraceOk : List QEvent → Prop
  | [] => True
  | e :: rest =>
      (match e with
       | QEvent.audioChunk tid _ => QEvent.translationDone tid ∈ rest
       | _ => True) ∧ chunkTraceOk rest

theorem get?_some_lt {l : List TranslationTask} {n : Nat} {a : TranslationTask}
    (h : l.get? n = some a) : n < l.length := by
  by_contra hc
  rw [Nat.not_lt] at hc
  rw [List.get?_eq_none.mpr hc] at h
  cases h

/-- The reachable-state invariant of the scheduler. -/
structure QInv (s : QState) : Prop where
  hpend : ∀ tid ∈ s.pending, ∃ t, s.tasks.get? tid = some t ∧
      t.status = TaskStatus.pending
  hact : ∀ tid ∈ s.activeIds, ∃ t, s.tasks.get? tid = some t ∧
      (t.status = TaskStatus.processing ∨ t.status = TaskStatus.failed)
  hcompl : ∀ tid ∈ s.completedIds, tid < s.tasks.length
  hnodupP : s.pending.Nodup
  hnodupA : s.activeIds.Nodup
  hdisj : ∀ tid ∈ s.pending, tid ∉ s.activeIds
  hinf : ∀ p ∈ s.inflight, p.1 ∈ s.activeIds ∧
      ∃ t, s.tasks.get? p.1 = some t ∧ t.startedAt.isSome = true
  htime : ∀ t ∈ s.tasks, t.createdAt ≤ s.now ∧
      (∀ st, t.startedAt = some st → t.createdAt ≤ st ∧ st ≤ s.now) ∧
      (t.status = TaskStatus.completed → ∃ st ct, t.startedAt = some st ∧
        t.completedAt = some ct ∧ t.createdAt ≤ st ∧ st ≤ ct)
  htr : s.cfg.translationCallbackSet = true →
      ∀ tid, (tid, WorkerPc.atSynthesize) ∈ s.inflight →
        QEvent.translationDone tid ∈ s.trace
  hchunk : s.cfg.translationCallbackSet = true → chunkTraceOk s.trace
  hbound : 1 ≤ s.cfg.maxConcurrent → s.pending.length ≤ s.cfg.maxConcurrent

theorem qinv_initial (cfg : QConfig) : QInv ⟨cfg, 0, [], [], [], [], [], []⟩ := by
  refine ⟨?_, ?_, ?_, ?_, ?_, ?_, ?_, ?_, ?_, ?_, ?_⟩ <;>
    simp [chunkTraceOk, List.Nodup]

theorem qinv_tick (s : QState) (dt : Nat) (h : QInv s) :
    QInv { s with now := s.now + dt } := by
  obtain ⟨h1, h2, h3, h4, h5, h6, h7, h8, h9, h10, h11⟩ := h
  refine ⟨h1, h2, h3, h4, h5, h6, h7, ?_, h9, h10, h11⟩
  intro t ht
  obtain ⟨c1, c2, c3⟩ := h8 t ht
  refine ⟨Nat.le_trans c1 (Nat.le_add_right _ _), ?_, c3⟩
  intro st hst
  obtain ⟨d1, d2⟩ := c2 st hst
  exact ⟨d1, Nat.le_trans d2 (Nat.le_add_right _ _)⟩

theorem qinv_finishTask (s : QState) (tid : Nat)
    (f : TranslationTask → TranslationTask) (h : QInv s)
    (hmem : ∃ pc, (tid, pc) ∈ s.inflight)
    (hf1 : ∀ t, (f t).createdAt = t.createdAt)
    (hf2 : ∀ t, (f t).startedAt = t.startedAt)
    (hf3 : ∀ t, s.tasks.get? tid = some t →
      ((f t).status = TaskStatus.completed → ∃ st ct, (f t).startedAt = some st ∧
        (f t).completedAt = some ct ∧ (f t).createdAt ≤ st ∧ st ≤ ct)) :
    QInv (finishTask s tid f) := by
  obtain ⟨pc0, hpc0⟩ := hmem
  have hactive : tid ∈ s.activeIds := (h.hinf _ hpc0).1
  have hnotpend : tid ∉ s.pending := fun hc => h.hdisj tid hc hactive
  refine ⟨?_, ?_, ?_, ?_, ?_, ?_, ?_, ?_, ?_, ?_, ?_⟩
  · -- hpend
    intro j hj
    have hj' : j ∈ s.pending := hj
    have hne : j ≠ tid := fun hc => hnotpend (hc ▸ hj')
    obtain ⟨t, hget, hstat⟩ := h.hpend j hj'
    exact ⟨t, by
      show (modifyTask s.tasks tid f).get? j = some t
      rw [modifyTask_get_other s.tasks tid j f hne]; exact hget, hstat⟩
  · -- hact
    intro j hj
    have hj' : j ∈ s.activeIds.erase tid := hj
    have hne : j ≠ tid := fun hc => (h.hnodupA.not_mem_erase) (hc ▸ hj')
    have hjA : j ∈ s.activeIds := List.mem_of_mem_erase hj'
    obtain ⟨t, hget, hstat⟩ := h.hact j hjA
    exact ⟨t, by
      show (modifyTask s.tasks tid f).get? j = some t
      rw [modifyTask_get_other s.tasks tid j f hne]; exact hget, hstat⟩
  · -- hcompl
    intro j hj
    show j < (modifyTask s.tasks tid f).length
    rw [modifyTask_length]
    have hj' : j ∈ (if tid ∈ s.completedIds then s.completedIds
        else tid :: s.completedIds) := hj
    by_cases hc : tid ∈ s.completedIds
    · rw [if_pos hc] at hj'
      exact h.hcompl j hj'
    · rw [if_neg hc] at hj'
      rcases List.mem_cons.mp hj' with hj2 | hj2
      · subst hj2
        obtain ⟨t, hget, -⟩ := h.hact j hactive
        exact get?_some_lt hget
      · exact h.hcompl j hj2
  · exact h.hnodupP
  · exact h.hnodupA.erase tid
  · -- hdisj
    intro j hj
    exact fun hc => h.hdisj j hj (List.mem_of_mem_erase hc)
  · -- hinf
    intro p hp
    have hp' : p ∈ s.inflight.filter (fun q => q.1 != tid) := hp
    obtain ⟨hpin, hpne⟩ := List.mem_filter.mp hp'
    have hne : p.1 ≠ tid := by simpa using hpne
    obtain ⟨hpa, t, hget, hsome⟩ := h.hinf p hpin
    refine ⟨List.mem_erase_of_ne hne |>.mpr hpa, t, ?_, hsome⟩
    show (modifyTask s.tasks tid f).get? p.1 = some t
    rw [modifyTask_get_other s.tasks tid p.1 f hne]
    exact hget
  · -- htime
    intro t ht
    have ht' : t ∈ modifyTask s.tasks tid f := ht
    rcases mem_modifyTask s.tasks tid f t ht' with hold | ⟨t0, hget0, hft0⟩
    · exact h.htime t hold
    · obtain ⟨c1, c2, c3⟩ := h.htime t0 (List.get?_mem hget0)
      subst hft0
      refine ⟨by rw [hf1]; exact c1, ?_, hf3 t0 hget0⟩
      intro st hst
      rw [hf2] at hst
      obtain ⟨d1, d2⟩ := c2 st hst
      exact ⟨by rw [hf1]; exact d1, d2⟩
  · -- htr
    intro hset j hj
    have hj' : (j, WorkerPc.atSynthesize) ∈
        s.inflight.filter (fun q => q.1 != tid) := hj
    exact h.htr hset j (List.mem_filter.mp hj').1
  · exact h.hchunk
  · exact h.hbound

theorem qinv_pickTask (s : QState) (h : QInv s) : QInv (stepPickTask s) := by
  cases hp : s.pending with
  | nil =>
      unfold stepPickTask
      rw [hp]
      exact h
  | cons tid rest =>
      obtain ⟨t, hget, hstat⟩ := h.hpend tid (by rw [hp]; exact List.mem_cons_self tid rest)
      have hrestsub : ∀ j, j ∈ rest → j ∈ s.pending := by
        intro j hj; rw [hp]; exact List.mem_cons_of_mem tid hj
      have hnodup' : rest.Nodup := by
        have := h.hnodupP
        rw [hp] at this
        exact this.of_cons
      have htidrest : tid ∉ rest := by
        have := h.hnodupP
        rw [hp] at this
        exact (List.nodup_cons.mp this).1
      have htidpend : tid ∈ s.pending := by
        rw [hp]; exact List.mem_cons_self tid rest
      have htidact : tid ∉ s.activeIds := h.hdisj tid htidpend
      have hboundrest : ∀ c : Nat, s.pending.length ≤ c → rest.length ≤ c := by
        intro c hc
        rw [hp] at hc
        exact Nat.le_trans (Nat.le_succ _) hc
      unfold stepPickTask
      rw [hp]
      simp only
      rw [hget]
      simp only
      by_cases hstale : t.timeoutSeconds < s.now - t.createdAt
      · rw [if_pos hstale]
        refine ⟨?_, ?_, ?_, hnodup', h.hnodupA, ?_, ?_, ?_, ?_, ?_, ?_⟩
        · intro j hj
          have hj' : j ∈ rest := hj
          have hne : j ≠ tid := fun hc => htidrest (hc ▸ hj')
          obtain ⟨t2, hg2, hs2⟩ := h.hpend j (hrestsub j hj')
          exact ⟨t2, by
            show (modifyTask s.tasks tid _).get? j = some t2
            rw [modifyTask_get_other _ _ _ _ hne]; exact hg2, hs2⟩
        · intro j hj
          have hj' : j ∈ s.activeIds := hj
          have hne : j ≠ tid := fun hc => htidact (hc ▸ hj')
          obtain ⟨t2, hg2, hs2⟩ := h.hact j hj'
          exact ⟨t2, by
            show (modifyTask s.tasks tid _).get? j = some t2
            rw [modifyTask_get_other _ _ _ _ hne]; exact hg2, hs2⟩
        · intro j hj
          show j < (modifyTask s.tasks tid _).length
          rw [modifyTask_length]
          exact h.hcompl j hj
        · intro j hj
          exact h.hdisj j (hrestsub j hj)
        · intro p hpin
          have hpin' : p ∈ s.inflight := hpin
          obtain ⟨hpa, t2, hg2, hs2⟩ := h.hinf p hpin'
          have hne : p.1 ≠ tid := fun hc => htidact (hc ▸ hpa)
          exact ⟨hpa, t2, by
            show (modifyTask s.tasks tid _).get? p.1 = some t2
            rw [modifyTask_get_other _ _ _ _ hne]; exact hg2, hs2⟩
        · intro t2 ht2
          have ht2' : t2 ∈ modifyTask s.tasks tid
              (markTimedOut ("Task timeout before processing")) := ht2
          rcases mem_modifyTask _ _ _ _ ht2' with hold | ⟨t0, hg0, hf0⟩
          · exact h.htime t2 hold
          · obtain ⟨c1, c2, c3⟩ := h.htime t0 (List.get?_mem hg0)
            subst hf0
            exact ⟨c1, c2, fun hc => by simp [markTimedOut] at hc⟩
        · exact fun hset j hj => h.htr hset j hj
        · exact h.hchunk
        · intro hc
          exact hboundrest _ (h.hbound hc)
      · rw [if_neg hstale]
        refine ⟨?_, ?_, ?_, hnodup', ?_, ?_, ?_, ?_, ?_, ?_, ?_⟩
        · intro j hj
          have hj' : j ∈ rest := hj
          have hne : j ≠ tid := fun hc => htidrest (hc ▸ hj')
          obtain ⟨t2, hg2, hs2⟩ := h.hpend j (hrestsub j hj')
          exact ⟨t2, by
            show (modifyTask s.tasks tid _).get? j = some t2
            rw [modifyTask_get_other _ _ _ _ hne]; exact hg2, hs2⟩
        · intro j hj
          have hj' : j ∈ tid :: s.activeIds := hj
          rcases List.mem_cons.mp hj' with hj2 | hj2
          · subst hj2
            refine ⟨{ t with
                status := TaskStatus.processing
                startedAt := some s.now }, ?_, Or.inl rfl⟩
            show (modifyTask s.tasks j _).get? j = some _
            rw [modifyTask_get_self, hget]
            rfl
          · have hne : j ≠ tid := fun hc => htidact (hc ▸ hj2)
            obtain ⟨t2, hg2, hs2⟩ := h.hact j hj2
            exact ⟨t2, by
              show (modifyTask s.tasks tid _).get? j = some t2
              rw [modifyTask_get_other _ _ _ _ hne]; exact hg2, hs2⟩
        · intro j hj
          show j < (modifyTask s.tasks tid _).length
          rw [modifyTask_length]
          exact h.hcompl j hj
        · exact List.nodup_cons.mpr ⟨htidact, h.hnodupA⟩
        · intro j hj
          have hj' : j ∈ rest := hj
          have hne : j ≠ tid := fun hc => htidrest (hc ▸ hj')
          intro hc
          rcases List.mem_cons.mp hc with hc2 | hc2
          · exact hne hc2
          · exact h.hdisj j (hrestsub j hj') hc2
        · intro p hpin
          rcases List.mem_cons.mp hpin with hp2 | hp2
          · subst hp2
            refine ⟨List.mem_cons_self _ _, { t with
                status := TaskStatus.processing
                startedAt := some s.now }, ?_, rfl⟩
            show (modifyTask s.tasks tid _).get? tid = some _
            rw [modifyTask_get_self, hget]
            rfl
          · obtain ⟨hpa, t2, hg2, hs2⟩ := h.hinf p hp2
            have hne : p.1 ≠ tid := fun hc => htidact (hc ▸ hpa)
            exact ⟨List.mem_cons_of_mem _ hpa, t2, by
              show (modifyTask s.tasks tid _).get? p.1 = some t2
              rw [modifyTask_get_other _ _ _ _ hne]; exact hg2, hs2⟩
        · intro t2 ht2
          have ht2' : t2 ∈ modifyTask s.tasks tid (fun t0 =>
              { t0 with status := TaskStatus.processing,
                        startedAt := some s.now }) := ht2
          rcases mem_modifyTask _ _ _ _ ht2' with hold | ⟨t0, hg0, hf0⟩
          · exact h.htime t2 hold
          · obtain ⟨c1, c2, c3⟩ := h.htime t0 (List.get?_mem hg0)
            subst hf0
            refine ⟨c1, ?_, fun hc => by simp at hc⟩
            intro st hst
            have : st = s.now := by
              simpa using hst.symm
            subst this
            exact ⟨c1, Nat.le_refl _⟩
        · intro hset j hj
          rcases List.mem_cons.mp hj with hj2 | hj2
          · cases hj2
          · exact h.htr hset j hj2
        · exact h.hchunk
        · intro hc
          exact hboundrest _ (h.hbound hc)

theorem qinv_cleanup (s : QState) (h : QInv s) : QInv (cleanupOldTasks s) := by
  refine ⟨h.hpend, h.hact, ?_, h.hnodupP, h.hnodupA, h.hdisj, h.hinf, h.htime,
    h.htr, h.hchunk, h.hbound⟩
  intro j hj
  have hj' : j ∈ s.completedIds.filter _ := hj
  exact h.hcompl j (List.mem_filter.mp hj').1

theorem qinv_appendNew (s : QState) (text tl : List Char) (timeout : Option Nat)
    (h : QInv s) (hb : 1 ≤ s.cfg.maxConcurrent →
      s.pending.length < s.cfg.maxConcurrent) :
    QInv (appendNew s text tl timeout) := by
  have hgetold : ∀ j (t : TranslationTask), s.tasks.get? j = some t →
      (appendNew s text tl timeout).tasks.get? j = some t := by
    intro j t hg
    show (s.tasks ++ [_]).get? j = some t
    rw [List.get?_append (get?_some_lt hg)]
    exact hg
  have hpendlt : ∀ j, j ∈ s.pending → j < s.tasks.length := by
    intro j hj
    obtain ⟨t, hg, -⟩ := h.hpend j hj
    exact get?_some_lt hg
  have hactlt : ∀ j, j ∈ s.activeIds → j < s.tasks.length := by
    intro j hj
    obtain ⟨t, hg, -⟩ := h.hact j hj
    exact get?_some_lt hg
  refine ⟨?_, ?_, ?_, ?_, h.hnodupA, ?_, ?_, ?_, h.htr, h.hchunk, ?_⟩
  · intro j hj
    have hj' : j ∈ s.pending ++ [s.tasks.length] := hj
    rcases List.mem_append.mp hj' with hj2 | hj2
    · obtain ⟨t, hg, hs2⟩ := h.hpend j hj2
      exact ⟨t, hgetold j t hg, hs2⟩
    · have hj3 : j = s.tasks.length := by simpa using hj2
      subst hj3
      exact ⟨_, List.get?_concat_length s.tasks _, rfl⟩
  · intro j hj
    obtain ⟨t, hg, hs2⟩ := h.hact j hj
    exact ⟨t, hgetold j t hg, hs2⟩
  · intro j hj
    show j < (s.tasks ++ [_]).length
    rw [List.length_append]
    exact Nat.lt_of_lt_of_le (h.hcompl j hj) (Nat.le_add_right _ _)
  · show (s.pending ++ [s.tasks.length]).Nodup
    rw [List.nodup_append]
    refine ⟨h.hnodupP, List.nodup_singleton _, ?_⟩
    intro j hj hj2
    have hj3 : j = s.tasks.length := by simpa using hj2
    exact absurd (hj3 ▸ hpendlt j hj) (Nat.lt_irrefl _)
  · intro j hj
    have hj' : j ∈ s.pending ++ [s.tasks.length] := hj
    rcases List.mem_append.mp hj' with hj2 | hj2
    · exact h.hdisj j hj2
    · have hj3 : j = s.tasks.length := by simpa using hj2
      subst hj3
      intro hc
      exact absurd (hactlt _ hc) (Nat.lt_irrefl _)
  · intro p hp
    obtain ⟨hpa, t, hg, hsome⟩ := h.hinf p hp
    exact ⟨hpa, t, hgetold p.1 t hg, hsome⟩
  · intro t ht
    have ht' : t ∈ s.tasks ++ [_] := ht
    rcases List.mem_append.mp ht' with ht2 | ht2
    · exact h.htime t ht2
    · have ht3 := List.mem_singleton.mp ht2
      subst ht3
      refine ⟨Nat.le_refl _, ?_, ?_⟩
      · intro st hst
        simp at hst
      · intro hc
        simp at hc
  · intro hc
    show (s.pending ++ [s.tasks.length]).length ≤ s.cfg.maxConcurrent
    rw [List.length_append]
    exact hb hc

theorem qinv_evictIfFull (s : QState) (h : QInv s) : QInv (evictIfFull s) := by
  unfold evictIfFull
  by_cases hful : s.cfg.maxConcurrent ≤ s.pending.length
  · rw [if_pos hful]
    cases hp : s.pending with
    | nil => exact h
    | cons hd rest =>
        simp only
        obtain ⟨t, hget, hstat⟩ := h.hpend hd
          (by rw [hp]; exact List.mem_cons_self hd rest)
        have hrestsub : ∀ j, j ∈ rest → j ∈ s.pending := by
          intro j hj; rw [hp]; exact List.mem_cons_of_mem hd hj
        have hnodup' : rest.Nodup := by
          have := h.hnodupP; rw [hp] at this; exact this.of_cons
        have hhdrest : hd ∉ rest := by
          have := h.hnodupP; rw [hp] at this; exact (List.nodup_cons.mp this).1
        have hhdact : hd ∉ s.activeIds :=
          h.hdisj hd (by rw [hp]; exact List.mem_cons_self hd rest)
        refine ⟨?_, ?_, ?_, hnodup', h.hnodupA, ?_, ?_, ?_, h.htr, h.hchunk, ?_⟩
        · intro j hj
          have hj' : j ∈ rest := hj
          have hne : j ≠ hd := fun hc => hhdrest (hc ▸ hj')
          obtain ⟨t2, hg2, hs2⟩ := h.hpend j (hrestsub j hj')
          exact ⟨t2, by
            show (modifyTask s.tasks hd _).get? j = some t2
            rw [modifyTask_get_other _ _ _ _ hne]; exact hg2, hs2⟩
        · intro j hj
          have hj' : j ∈ s.activeIds := hj
          have hne : j ≠ hd := fun hc => hhdact (hc ▸ hj')
          obtain ⟨t2, hg2, hs2⟩ := h.hact j hj'
          exact ⟨t2, by
            show (modifyTask s.tasks hd _).get? j = some t2
            rw [modifyTask_get_other _ _ _ _ hne]; exact hg2, hs2⟩
        · intro j hj
          show j < (modifyTask s.tasks hd _).length
          rw [modifyTask_length]
          exact h.hcompl j hj
        · intro j hj
          exact h.hdisj j (hrestsub j hj)
        · intro p hpin
          have hpin' : p ∈ s.inflight := hpin
          obtain ⟨hpa, t2, hg2, hs2⟩ := h.hinf p hpin'
          have hne : p.1 ≠ hd := fun hc => hhdact (hc ▸ hpa)
          exact ⟨hpa, t2, by
            show (modifyTask s.tasks hd _).get? p.1 = some t2
            rw [modifyTask_get_other _ _ _ _ hne]; exact hg2, hs2⟩
        · intro t2 ht2
          have ht2' : t2 ∈ modifyTask s.tasks hd (markFailed ("Queue overflow")) := ht2
          rcases mem_modifyTask _ _ _ _ ht2' with hold | ⟨t0, hg0, hf0⟩
          · exact h.htime t2 hold
          · obtain ⟨c1, c2, c3⟩ := h.htime t0 (List.get?_mem hg0)
            subst hf0
            exact ⟨c1, c2, fun hc => by simp [markFailed] at hc⟩
        · intro hc
          have := h.hbound hc
          rw [hp] at this
          show rest.length ≤ s.cfg.maxConcurrent
          exact Nat.le_trans (Nat.le_succ _) this
  · rw [if_neg hful]
    exact h

theorem evictIfFull_cfg (s : QState) : (evictIfFull s).cfg = s.cfg := by
  unfold evictIfFull
  by_cases hful : s.cfg.maxConcurrent ≤ s.pending.length
  · rw [if_pos hful]
    cases s.pending <;> rfl
  · rw [if_neg hful]

theorem evictIfFull_pending_lt (s : QState) (h : QInv s)
    (hc : 1 ≤ s.cfg.maxConcurrent) :
    (evictIfFull s).pending.length < s.cfg.maxConcurrent := by
  unfold evictIfFull
  by_cases hful : s.cfg.maxConcurrent ≤ s.pending.length
  · rw [if_pos hful]
    cases hp : s.pending with
    | nil =>
        show s.pending.length < s.cfg.maxConcurrent
        rw [hp]
        exact Nat.lt_of_lt_of_le Nat.zero_lt_one hc
    | cons hd rest =>
        show rest.length < s.cfg.maxConcurrent
        have hb1 := h.hbound hc
        rw [hp] at hb1
        exact Nat.lt_of_succ_le (by simpa using hb1)
  · rw [if_neg hful]
    exact Nat.lt_of_not_le hful

theorem qinv_addTask (s : QState) (text tl : List Char) (timeout : Option Nat)
    (h : QInv s) : QInv (stepAddTask s text tl timeout) := by
  unfold stepAddTask
  have h1 := qinv_cleanup s h
  have h2 := qinv_evictIfFull _ h1
  refine qinv_appendNew _ text tl timeout h2 ?_
  intro hc
  rw [evictIfFull_cfg] at hc ⊢
  exact evictIfFull_pending_lt _ h1 hc

theorem mem_setPc (infl : List (Nat × WorkerPc)) (tid : Nat) (pc : WorkerPc)
    (p' : Nat × WorkerPc) (h : p' ∈ setPc infl tid pc) :
    ∃ p, p ∈ infl ∧ p'.1 = p.1 ∧ (p' = p ∨ (p.1 = tid ∧ p' = (p.1, pc))) := by
  unfold setPc at h
  rcases List.mem_map.mp h with ⟨p, hp, hmap⟩
  by_cases hc : p.1 = tid
  · rw [if_pos hc] at hmap
    exact ⟨p, hp, by rw [← hmap], Or.inr ⟨hc, hmap.symm⟩⟩
  · rw [if_neg hc] at hmap
    exact ⟨p, hp, by rw [← hmap], Or.inl hmap.symm⟩

theorem qinv_translateReturn (s : QState) (tid : Nat) (tr : List Char)
    (h : QInv s) : QInv (stepTranslateReturn s tid tr) := by
  unfold stepTranslateReturn
  by_cases hg : (tid, WorkerPc.atTranslate) ∈ s.inflight
  · rw [if_pos hg]
    by_cases hemp : translationEmptyCheck tr
    · rw [if_pos hemp]
      refine qinv_finishTask s tid _ h ⟨_, hg⟩ (fun t => rfl) (fun t => rfl) ?_
      intro t hget hc
      simp [markFailed] at hc
    · rw [if_neg hemp]
      by_cases htc : s.cfg.translationCallbackSet = true
      · rw [if_pos htc]
        refine ⟨h.hpend, h.hact, h.hcompl, h.hnodupP, h.hnodupA, h.hdisj,
          ?_, h.htime, ?_, ?_, h.hbound⟩
        · intro p hp
          obtain ⟨p0, hp0, hfst, -⟩ := mem_setPc _ _ _ p hp
          obtain ⟨hpa, t, hget, hsome⟩ := h.hinf p0 hp0
          rw [hfst]
          exact ⟨hpa, t, hget, hsome⟩
        · intro hset j hj
          obtain ⟨p0, hp0, hfst, hor⟩ := mem_setPc _ _ _ (j, WorkerPc.atSynthesize) hj
          show QEvent.translationDone j ∈ QEvent.translationDone tid :: s.trace
          rcases hor with hsame | ⟨hptid, hrepl⟩
          · have : (j, WorkerPc.atSynthesize) ∈ s.inflight := hsame ▸ hp0
            exact List.mem_cons_of_mem _ (h.htr hset j this)
          · have hjtid : j = tid := by
              have := congrArg Prod.fst hrepl
              simp only at this
              rw [this, hptid]
            rw [hjtid]
            exact List.mem_cons_self _ _
        · intro hset
          show chunkTraceOk (QEvent.translationDone tid :: s.trace)
          exact ⟨trivial, h.hchunk hset⟩
      · rw [if_neg htc]
        refine ⟨h.hpend, h.hact, h.hcompl, h.hnodupP, h.hnodupA, h.hdisj,
          ?_, h.htime, ?_, h.hchunk, h.hbound⟩
        · intro p hp
          obtain ⟨p0, hp0, hfst, -⟩ := mem_setPc _ _ _ p hp
          obtain ⟨hpa, t, hget, hsome⟩ := h.hinf p0 hp0
          rw [hfst]
          exact ⟨hpa, t, hget, hsome⟩
        · intro hset
          exact absurd hset htc
  · rw [if_neg hg]
    exact h

theorem qinv_translateRaise (s : QState) (tid : Nat) (msg : String)
    (h : QInv s) : QInv (stepTranslateRaise s tid msg) := by
  unfold stepTranslateRaise
  by_cases hg : (tid, WorkerPc.atTranslate) ∈ s.inflight
  · rw [if_pos hg]
    refine qinv_finishTask s tid _ h ⟨_, hg⟩ (fun t => rfl) (fun t => rfl) ?_
    intro t hget hc
    simp [markFailed] at hc
  · rw [if_neg hg]
    exact h

theorem qinv_translateTimeout (s : QState) (tid : Nat)
    (h : QInv s) : QInv (stepTranslateTimeout s tid) := by
  unfold stepTranslateTimeout
  by_cases hg : (tid, WorkerPc.atTranslate) ∈ s.inflight
  · rw [if_pos hg]
    refine qinv_finishTask s tid _ h ⟨_, hg⟩ (fun t => rfl) (fun t => rfl) ?_
    intro t hget hc
    simp [markTimedOut] at hc
  · rw [if_neg hg]
    exact h

theorem qinv_synthChunk (s : QState) (tid : Nat) (final : Bool)
    (h : QInv s) : QInv (stepSynthChunk s tid final) := by
  unfold stepSynthChunk
  by_cases hg : (tid, WorkerPc.atSynthesize) ∈ s.inflight
  · rw [if_pos hg]
    by_cases hac : s.cfg.audioChunkCallbackSet = true
    · rw [if_pos hac]
      refine ⟨h.hpend, h.hact, h.hcompl, h.hnodupP, h.hnodupA, h.hdisj,
        h.hinf, h.htime, ?_, ?_, h.hbound⟩
      · intro hset j hj
        exact List.mem_cons_of_mem _ (h.htr hset j hj)
      · intro hset
        show chunkTraceOk (QEvent.audioChunk tid final :: s.trace)
        exact ⟨h.htr hset tid hg, h.hchunk hset⟩
    · rw [if_neg hac]
      exact h
  · rw [if_neg hg]
    exact h

theorem qinv_synthReturn (s : QState) (tid : Nat) (audio : Option Nat)
    (h : QInv s) : QInv (stepSynthReturn s tid audio) := by
  unfold stepSynthReturn
  by_cases hg : (tid, WorkerPc.atSynthesize) ∈ s.inflight
  · rw [if_pos hg]
    refine qinv_finishTask s tid _ h ⟨_, hg⟩ (fun t => rfl) (fun t => rfl) ?_
    intro t hget _
    obtain ⟨hpa, t2, hget2, hsome⟩ := h.hinf (tid, WorkerPc.atSynthesize) hg
    have ht2 : t2 = t := by
      rw [hget] at hget2
      exact (Option.some.injEq _ _ ▸ hget2).symm
    subst ht2
    cases hst : t2.startedAt with
    | none => rw [hst] at hsome; cases hsome
    | some st =>
        obtain ⟨-, c2, -⟩ := h.htime t2 (List.get?_mem hget)
        obtain ⟨d1, d2⟩ := c2 st hst
        exact ⟨st, s.now, by simp [hst], by simp, d1, d2⟩
  · rw [if_neg hg]
    exact h

theorem qinv_synthRaise (s : QState) (tid : Nat) (msg : String)
    (h : QInv s) : QInv (stepSynthRaise s tid msg) := by
  unfold stepSynthRaise
  by_cases hg : (tid, WorkerPc.atSynthesize) ∈ s.inflight
  · rw [if_pos hg]
    refine qinv_finishTask s tid _ h ⟨_, hg⟩ (fun t => rfl) (fun t => rfl) ?_
    intro t hget hc
    simp [markFailed] at hc
  · rw [if_neg hg]
    exact h

theorem qinv_synthTimeout (s : QState) (tid : Nat)
    (h : QInv s) : QInv (stepSynthTimeout s tid) := by
  unfold stepSynthTimeout
  by_cases hg : (tid, WorkerPc.atSynthesize) ∈ s.inflight
  · rw [if_pos hg]
    refine qinv_finishTask s tid _ h ⟨_, hg⟩ (fun t => rfl) (fun t => rfl) ?_
    intro t hget hc
    simp [markTimedOut] at hc
  · rw [if_neg hg]
    exact h

theorem qinv_clear (s : QState) (h : QInv s) : QInv (stepClear s) := by
  have hget2 : ∀ j, j ∈ s.activeIds →
      (markAllFailed (markAllFailed s.tasks s.pending ("Task cleared by user"))
        s.activeIds ("Task cancelled by user")).get? j =
      (s.tasks.get? j).map (markFailed ("Task cancelled by user")) := by
    intro j hj
    rw [markAllFailed_get, if_pos hj, markAllFailed_get,
      if_neg (fun hc => h.hdisj j hc hj)]
  refine ⟨?_, ?_, ?_, ?_, h.hnodupA, ?_, ?_, ?_, h.htr, h.hchunk, ?_⟩
  · intro j hj
    cases hj
  · intro j hj
    have hj' : j ∈ s.activeIds := hj
    obtain ⟨t, hget, -⟩ := h.hact j hj'
    refine ⟨markFailed ("Task cancelled by user") t, ?_, Or.inr rfl⟩
    show (markAllFailed _ s.activeIds _).get? j = _
    rw [hget2 j hj', hget]
    rfl
  · intro j hj
    cases hj
  · exact List.nodup_nil
  · intro j hj
    cases hj
  · intro p hp
    have hp' : p ∈ s.inflight := hp
    obtain ⟨hpa, t, hget, hsome⟩ := h.hinf p hp'
    refine ⟨hpa, markFailed ("Task cancelled by user") t, ?_, ?_⟩
    · show (markAllFailed _ s.activeIds _).get? p.1 = _
      rw [hget2 p.1 hpa, hget]
      rfl
    · simpa [markFailed] using hsome
  · intro t ht
    have ht' : t ∈ markAllFailed (markAllFailed s.tasks s.pending
        "Task cleared by user") s.activeIds ("Task cancelled by user") := ht
    rcases mem_markAllFailed _ _ _ _ ht' with ⟨t1, ht1, hor1⟩
    rcases mem_markAllFailed _ _ _ _ ht1 with ⟨t0, ht0, hor0⟩
    obtain ⟨c1, c2, c3⟩ := h.htime t0 ht0
    have hfields : t.createdAt = t0.createdAt ∧ t.startedAt = t0.startedAt ∧
        (t.status = TaskStatus.completed →
          t = t0) := by
      rcases hor1 with h1 | h1 <;> rcases hor0 with h0 | h0 <;>
        subst h1 <;> subst h0 <;>
        refine ⟨rfl, rfl, ?_⟩ <;> intro hc
      · rfl
      · simp [markFailed] at hc
      · simp [markFailed] at hc
      · simp [markFailed] at hc
    obtain ⟨e1, e2, e3⟩ := hfields
    refine ⟨by rw [e1]; exact c1, ?_, ?_⟩
    · intro st hst
      rw [e2] at hst
      obtain ⟨d1, d2⟩ := c2 st hst
      exact ⟨by rw [e1]; exact d1, d2⟩
    · intro hc
      have := e3 hc
      subst this
      exact c3 hc
  · intro hc
    exact Nat.zero_le _

theorem qinv_step (s : QState) (a : QAction) (h : QInv s) : QInv (step s a) := by
  cases a with
  | tick dt => exact qinv_tick s dt h
  | addTask text tl timeout => exact qinv_addTask s text tl timeout h
  | pickTask => exact qinv_pickTask s h
  | translateReturn tid tr => exact qinv_translateReturn s tid tr h
  | translateRaise tid msg => exact qinv_translateRaise s tid msg h
  | translateTimeout tid => exact qinv_translateTimeout s tid h
  | synthChunk tid final => exact qinv_synthChunk s tid final h
  | synthReturn tid audio => exact qinv_synthReturn s tid audio h
  | synthRaise tid msg => exact qinv_synthRaise s tid msg h
  | synthTimeout tid => exact qinv_synthTimeout s tid h
  | clearPendingTasks => exact qinv_clear s h

theorem qinv_foldl (acts : List QAction) (s : QState) (h : QInv s) :
    QInv (acts.foldl step s) := by
  induction acts generalizing s with
  | nil => exact h
  | cons a rest ih => exact ih (step s a) (qinv_step s a h)

theorem qinv_runQ (cfg : QConfig) (acts : List QAction) : QInv (runQ cfg acts) :=
  qinv_foldl acts _ (qinv_initial cfg)

theorem runQ_cfg_foldl (acts : List QAction) (s : QState) :
    (acts.foldl step s).cfg = s.cfg := by
  induction acts generalizing s with
  | nil => rfl
  | cons a rest ih =>
      rw [List.foldl_cons, ih]
      cases a with
      | tick dt => rfl
      | addTask text tl timeout =>
          show (stepAddTask s text tl timeout).cfg = s.cfg
          unfold stepAddTask appendNew
          show (evictIfFull (cleanupOldTasks s)).cfg = s.cfg
          rw [evictIfFull_cfg]
          rfl
      | pickTask =>
          show (stepPickTask s).cfg = s.cfg
          unfold stepPickTask
          cases hp : s.pending with
          | nil => rfl
          | cons tid rest2 =>
              simp only
              cases hg : s.tasks.get? tid with
              | none => rfl
              | some t =>
                  simp only
                  by_cases hst : t.timeoutSeconds < s.now - t.createdAt
                  · rw [if_pos hst]
                  · rw [if_neg hst]
      | translateReturn tid tr =>
          show (stepTranslateReturn s tid tr).cfg = s.cfg
          unfold stepTranslateReturn
          by_cases hg : (tid, WorkerPc.atTranslate) ∈ s.inflight
          · rw [if_pos hg]
            by_cases hemp : translationEmptyCheck tr
            · rw [if_pos hemp]; rfl
            · rw [if_neg hemp]
              by_cases htc : s.cfg.translationCallbackSet = true
              · rw [if_pos htc]
              · rw [if_neg htc]
          · rw [if_neg hg]
      | translateRaise tid msg =>
          show (stepTranslateRaise s tid msg).cfg = s.cfg
          unfold stepTranslateRaise
          by_cases hg : (tid, WorkerPc.atTranslate) ∈ s.inflight
          · rw [if_pos hg]; rfl
          · rw [if_neg hg]
      | translateTimeout tid =>
          show (stepTranslateTimeout s tid).cfg = s.cfg
          unfold stepTranslateTimeout
          by_cases hg : (tid, WorkerPc.atTranslate) ∈ s.inflight
          · rw [if_pos hg]; rfl
          · rw [if_neg hg]
      | synthChunk tid final =>
          show (stepSynthChunk s tid final).cfg = s.cfg
          unfold stepSynthChunk
          by_cases hg : (tid, WorkerPc.atSynthesize) ∈ s.inflight
          · rw [if_pos hg]
            by_cases hac : s.cfg.audioChunkCallbackSet = true
            · rw [if_pos hac]
            · rw [if_neg hac]
          · rw [if_neg hg]
      | synthReturn tid audio =>
          show (stepSynthReturn s tid audio).cfg = s.cfg
          unfold stepSynthReturn
          by_cases hg : (tid, WorkerPc.atSynthesize) ∈ s.inflight
          · rw [if_pos hg]; rfl
          · rw [if_neg hg]
      | synthRaise tid msg =>
          show (stepSynthRaise s tid msg).cfg = s.cfg
          unfold stepSynthRaise
          by_cases hg : (tid, WorkerPc.atSynthesize) ∈ s.inflight
          · rw [if_pos hg]; rfl
          · rw [if_neg hg]
      | synthTimeout tid =>
          show (stepSynthTimeout s tid).cfg = s.cfg
          unfold stepSynthTimeout
          by_cases hg : (tid, WorkerPc.atSynthesize) ∈ s.inflight
          · rw [if_pos hg]; rfl
          · rw [if_neg hg]
      | clearPendingTasks => rfl

theorem runQ_cfg (cfg : QConfig) (acts : List QAction) :
    (runQ cfg acts).cfg = cfg :=
  runQ_cfg_foldl acts _

/-! ## Claim theorems about the scheduler -/

/-- The status transitions the code can actually make.  Besides the
specified edges `PENDING → PROCESSING → {COMPLETED, FAILED, TIMEOUT}`,
the code also moves PENDING directly to FAILED (queue-overflow eviction,
clear) and to TIMEOUT (stale-work rejection in `_worker`), and a task
marked FAILED by `clear_pending_tasks` while its coroutine is suspended
is later overwritten with the outcome of that coroutine: FAILED →
COMPLETED and FAILED → TIMEOUT occur.  COMPLETED and TIMEOUT are never
left. -/
def allowedEdge : TaskStatus → TaskStatus → Bool
  | TaskStatus.pending, TaskStatus.processing => true
  | TaskStatus.pending, TaskStatus.failed => true
  | TaskStatus.pending, TaskStatus.timeout => true
  | TaskStatus.processing, TaskStatus.completed => true
  | TaskStatus.processing, TaskStatus.failed => true
  | TaskStatus.processing, TaskStatus.timeout => true
  | TaskStatus.failed, TaskStatus.completed => true
  | TaskStatus.failed, TaskStatus.timeout => true
  | _, _ => false

theorem statusOf_finishTask (s : QState) (tid0 : Nat)
    (f : TranslationTask → TranslationTask) (c : TaskStatus)
    (hc : ∀ t, (f t).status = c) (tid : Nat) :
    statusOf (finishTask s tid0 f) tid =
      if tid = tid0 then (statusOf s tid).map (fun _ => c) else statusOf s tid := by
  unfold statusOf
  by_cases he : tid = tid0
  · subst he
    rw [if_pos rfl]
    show ((modifyTask s.tasks tid f).get? tid).map _ = _
    rw [modifyTask_get_self]
    cases s.tasks.get? tid <;> simp [hc]
  · rw [if_neg he]
    show ((modifyTask s.tasks tid0 f).get? tid).map _ = _
    rw [modifyTask_get_other _ _ _ _ he]

theorem finish_case (s : QState) (h : QInv s) (tid0 : Nat) (pc0 : WorkerPc)
    (hg : (tid0, pc0) ∈ s.inflight) (f : TranslationTask → TranslationTask)
    (c : TaskStatus) (hc : ∀ t, (f t).status = c)
    (hc1 : c ≠ TaskStatus.pending) (hc2 : c ≠ TaskStatus.processing)
    (tid : Nat) (st st' : TaskStatus)
    (hs : statusOf s tid = some st)
    (hs' : statusOf (finishTask s tid0 f) tid = some st') (hne : st ≠ st') :
    allowedEdge st st' = true ∧
    (st = TaskStatus.failed → ∃ pc, (tid, pc) ∈ s.inflight) := by
  rw [statusOf_finishTask s tid0 f c hc tid] at hs'
  by_cases he : tid = tid0
  · subst he
    rw [if_pos rfl, hs] at hs'
    simp only [Option.map_some', Option.some.injEq] at hs'
    subst hs'
    have hacttid : tid ∈ s.activeIds := (h.hinf _ hg).1
    obtain ⟨t, hget, hstat⟩ := h.hact tid hacttid
    have hstt : t.status = st := by
      unfold statusOf at hs
      rw [hget] at hs
      simpa using hs
    constructor
    · rcases hstat with hp | hp <;> rw [hstt] at hp <;> subst hp <;>
        cases c <;> simp_all [allowedEdge]
    · intro _
      exact ⟨pc0, hg⟩
  · rw [if_neg he, hs] at hs'
    injection hs' with hs2
    exact absurd hs2 hne

theorem statusOf_appendNew (s : QState) (text tl : List Char)
    (timeout : Option Nat) (tid : Nat) (hlt : tid < s.tasks.length) :
    statusOf (appendNew s text tl timeout) tid = statusOf s tid := by
  unfold statusOf appendNew
  show ((s.tasks ++ [_]).get? tid).map _ = _
  rw [List.get?_append hlt]

theorem statusOf_some_lt (s : QState) (tid : Nat) (st : TaskStatus)
    (hs : statusOf s tid = some st) : tid < s.tasks.length := by
  unfold statusOf at hs
  cases hget : s.tasks.get? tid with
  | none => rw [hget] at hs; cases hs
  | some t => exact get?_some_lt hget

theorem statusOf_get (s : QState) (tid : Nat) (t : TranslationTask)
    (hget : s.tasks.get? tid = some t) (st : TaskStatus)
    (hs : statusOf s tid = some st) : t.status = st := by
  unfold statusOf at hs
  rw [hget] at hs
  simpa using hs

theorem statusOf_eq_absurd (s : QState) (tid : Nat) (st st' : TaskStatus)
    (hs : statusOf s tid = some st) (hs2 : statusOf s tid = some st')
    (hne : st ≠ st') : False := by
  rw [hs] at hs2
  injection hs2 with h3
  exact hne h3

/-- C1 amended: every status transition the system makes follows
`allowedEdge`, and a FAILED task can change status only while its
`_process_task` coroutine is still in flight (i.e. only a
cancellation-marked in-flight task is overwritten, by the outcome of the
resumed coroutine).  In particular COMPLETED and TIMEOUT are never
left, and the only edges are the specified
PENDING → PROCESSING → {COMPLETED, FAILED, TIMEOUT} plus
PENDING → {FAILED, TIMEOUT} (eviction, clear, stale rejection) and
FAILED → {COMPLETED, TIMEOUT} (cancelled in-flight task overwritten). -/
theorem status_transitions (cfg : QConfig) (acts : List QAction) (a : QAction)
    (tid : Nat) (st st' : TaskStatus)
    (hs : statusOf (runQ cfg acts) tid = some st)
    (hs' : statusOf (step (runQ cfg acts) a) tid = some st')
    (hne : st ≠ st') :
    allowedEdge st st' = true ∧
    (st = TaskStatus.failed → ∃ pc, (tid, pc) ∈ (runQ cfg acts).inflight) := by
  have h : QInv (runQ cfg acts) := qinv_runQ cfg acts
  set s := runQ cfg acts with hsdef
  clear_value s
  clear hsdef
  cases a with
  | tick dt =>
      have hs2 : statusOf s tid = some st' := hs'
      exact (statusOf_eq_absurd s tid st st' hs hs2 hne).elim
  | synthChunk tid0 final =>
      have hs'2 : statusOf (stepSynthChunk s tid0 final) tid = some st' := hs'
      unfold stepSynthChunk at hs'2
      by_cases hg : (tid0, WorkerPc.atSynthesize) ∈ s.inflight
      · rw [if_pos hg] at hs'2
        by_cases hac : s.cfg.audioChunkCallbackSet = true
        · rw [if_pos hac] at hs'2
          have hs2 : statusOf s tid = some st' := hs'2
          exact (statusOf_eq_absurd s tid st st' hs hs2 hne).elim
        · rw [if_neg hac] at hs'2
          exact (statusOf_eq_absurd s tid st st' hs hs'2 hne).elim
      · rw [if_neg hg] at hs'2
        exact (statusOf_eq_absurd s tid st st' hs hs'2 hne).elim
  | translateReturn tid0 tr =>
      have hs'2 : statusOf (stepTranslateReturn s tid0 tr) tid = some st' := hs'
      unfold stepTranslateReturn at hs'2
      by_cases hg : (tid0, WorkerPc.atTranslate) ∈ s.inflight
      · rw [if_pos hg] at hs'2
        by_cases hemp : translationEmptyCheck tr = true
        · rw [if_pos hemp] at hs'2
          exact finish_case s h tid0 _ hg _ TaskStatus.failed (fun t => rfl)
            (by decide) (by decide) tid st st' hs hs'2 hne
        · rw [if_neg hemp] at hs'2
          by_cases htc : s.cfg.translationCallbackSet = true
          · rw [if_pos htc] at hs'2
            have hs2 : statusOf s tid = some st' := hs'2
            exact (statusOf_eq_absurd s tid st st' hs hs2 hne).elim
          · rw [if_neg htc] at hs'2
            have hs2 : statusOf s tid = some st' := hs'2
            exact (statusOf_eq_absurd s tid st st' hs hs2 hne).elim
      · rw [if_neg hg] at hs'2
        exact (statusOf_eq_absurd s tid st st' hs hs'2 hne).elim
  | translateRaise tid0 msg =>
      have hs'2 : statusOf (stepTranslateRaise s tid0 msg) tid = some st' := hs'
      unfold stepTranslateRaise at hs'2
      by_cases hg : (tid0, WorkerPc.atTranslate) ∈ s.inflight
      · rw [if_pos hg] at hs'2
        exact finish_case s h tid0 _ hg _ TaskStatus.failed (fun t => rfl)
          (by decide) (by decide) tid st st' hs hs'2 hne
      · rw [if_neg hg] at hs'2
        exact (statusOf_eq_absurd s tid st st' hs hs'2 hne).elim
  | translateTimeout tid0 =>
      have hs'2 : statusOf (stepTranslateTimeout s tid0) tid = some st' := hs'
      unfold stepTranslateTimeout at hs'2
      by_cases hg : (tid0, WorkerPc.atTranslate) ∈ s.inflight
      · rw [if_pos hg] at hs'2
        exact finish_case s h tid0 _ hg _ TaskStatus.timeout (fun t => rfl)
          (by decide) (by decide) tid st st' hs hs'2 hne
      · rw [if_neg hg] at hs'2
        exact (statusOf_eq_absurd s tid st st' hs hs'2 hne).elim
  | synthReturn tid0 audio =>
      have hs'2 : statusOf (stepSynthReturn s tid0 audio) tid = some st' := hs'
      unfold stepSynthReturn at hs'2
      by_cases hg : (tid0, WorkerPc.atSynthesize) ∈ s.inflight
      · rw [if_pos hg] at hs'2
        exact finish_case s h tid0 _ hg _ TaskStatus.completed (fun t => rfl)
          (by decide) (by decide) tid st st' hs hs'2 hne
      · rw [if_neg hg] at hs'2
        exact (statusOf_eq_absurd s tid st st' hs hs'2 hne).elim
  | synthRaise tid0 msg =>
      have hs'2 : statusOf (stepSynthRaise s tid0 msg) tid = some st' := hs'
      unfold stepSynthRaise at hs'2
      by_cases hg : (tid0, WorkerPc.atSynthesize) ∈ s.inflight
      · rw [if_pos hg] at hs'2
        exact finish_case s h tid0 _ hg _ TaskStatus.failed (fun t => rfl)
          (by decide) (by decide) tid st st' hs hs'2 hne
      · rw [if_neg hg] at hs'2
        exact (statusOf_eq_absurd s tid st st' hs hs'2 hne).elim
  | synthTimeout tid0 =>
      have hs'2 : statusOf (stepSynthTimeout s tid0) tid = some st' := hs'
      unfold stepSynthTimeout at hs'2
      by_cases hg : (tid0, WorkerPc.atSynthesize) ∈ s.inflight
      · rw [if_pos hg] at hs'2
        exact finish_case s h tid0 _ hg _ TaskStatus.timeout (fun t => rfl)
          (by decide) (by decide) tid st st' hs hs'2 hne
      · rw [if_neg hg] at hs'2
        exact (statusOf_eq_absurd s tid st st' hs hs'2 hne).elim
  | pickTask =>
      have hs'2 : statusOf (stepPickTask s) tid = some st' := hs'
      unfold stepPickTask at hs'2
      cases hp : s.pending with
      | nil =>
          rw [hp] at hs'2
          have hs2 : statusOf s tid = some st' := hs'2
          exact (statusOf_eq_absurd s tid st st' hs hs2 hne).elim
      | cons hd rest =>
          rw [hp] at hs'2
          simp only at hs'2
          obtain ⟨t, hget, hstat⟩ := h.hpend hd
            (by rw [hp]; exact List.mem_cons_self hd rest)
          rw [hget] at hs'2
          simp only at hs'2
          by_cases hstale : t.timeoutSeconds < s.now - t.createdAt
          · rw [if_pos hstale] at hs'2
            by_cases htid : tid = hd
            · subst htid
              have hs3 : ((modifyTask s.tasks tid
                  (markTimedOut ("Task timeout before processing"))).get? tid).map
                  (fun t0 => t0.status) = some st' := hs'2
              rw [modifyTask_get_self, hget] at hs3
              simp only [Option.map_some', Option.some.injEq] at hs3
              have hstp : st = TaskStatus.pending := by
                rw [← statusOf_get s tid t hget st hs]
                exact hstat
              rw [← hs3, hstp]
              exact ⟨rfl, fun hf => absurd hf (by decide)⟩
            · have hs2 : statusOf s tid = some st' := by
                have hs3 : ((modifyTask s.tasks hd
                    (markTimedOut ("Task timeout before processing"))).get? tid).map
                    (fun t0 => t0.status) = some st' := hs'2
                rw [modifyTask_get_other _ _ _ _ htid] at hs3
                exact hs3
              exact (statusOf_eq_absurd s tid st st' hs hs2 hne).elim
          · rw [if_neg hstale] at hs'2
            by_cases htid : tid = hd
            · subst htid
              have hs3 : ((modifyTask s.tasks tid (fun t0 =>
                  { t0 with status := TaskStatus.processing,
                            startedAt := some s.now })).get? tid).map
                  (fun t0 => t0.status) = some st' := hs'2
              rw [modifyTask_get_self, hget] at hs3
              simp only [Option.map_some', Option.some.injEq] at hs3
              have hstp : st = TaskStatus.pending := by
                rw [← statusOf_get s tid t hget st hs]
                exact hstat
              rw [← hs3, hstp]
              exact ⟨rfl, fun hf => absurd hf (by decide)⟩
            · have hs2 : statusOf s tid = some st' := by
                have hs3 : ((modifyTask s.tasks hd (fun t0 =>
                    { t0 with status := TaskStatus.processing,
                              startedAt := some s.now })).get? tid).map
                    (fun t0 => t0.status) = some st' := hs'2
                rw [modifyTask_get_other _ _ _ _ htid] at hs3
                exact hs3
              exact (statusOf_eq_absurd s tid st st' hs hs2 hne).elim
  | addTask text tl timeout =>
      have hs'2 : statusOf (stepAddTask s text tl timeout) tid = some st' := hs'
      unfold stepAddTask at hs'2
      have hlt : tid < s.tasks.length := statusOf_some_lt s tid st hs
      have hlt2 : tid < (evictIfFull (cleanupOldTasks s)).tasks.length := by
        have hlen : (evictIfFull (cleanupOldTasks s)).tasks.length =
            (cleanupOldTasks s).tasks.length := by
          unfold evictIfFull
          by_cases hful : (cleanupOldTasks s).cfg.maxConcurrent ≤
              (cleanupOldTasks s).pending.length
          · rw [if_pos hful]
            cases hp : (cleanupOldTasks s).pending with
            | nil => rfl
            | cons hd rest =>
                simp only
                exact modifyTask_length _ _ _
          · rw [if_neg hful]
        rw [hlen]
        exact hlt
      rw [statusOf_appendNew _ text tl timeout tid hlt2] at hs'2
      unfold evictIfFull at hs'2
      by_cases hful : (cleanupOldTasks s).cfg.maxConcurrent ≤
          (cleanupOldTasks s).pending.length
      · rw [if_pos hful] at hs'2
        cases hp : (cleanupOldTasks s).pending with
        | nil =>
            rw [hp] at hs'2
            have hs2 : statusOf s tid = some st' := hs'2
            exact (statusOf_eq_absurd s tid st st' hs hs2 hne).elim
        | cons hd rest =>
            rw [hp] at hs'2
            simp only at hs'2
            by_cases htid : tid = hd
            · subst htid
              have hp2 : s.pending = tid :: rest := hp
              obtain ⟨t, hget, hstat⟩ := h.hpend tid
                (by rw [hp2]; exact List.mem_cons_self tid rest)
              have hs3 : ((modifyTask s.tasks tid
                  (markFailed ("Queue overflow"))).get? tid).map
                  (fun t0 => t0.status) = some st' := hs'2
              rw [modifyTask_get_self, hget] at hs3
              simp only [Option.map_some', Option.some.injEq] at hs3
              have hstp : st = TaskStatus.pending := by
                rw [← statusOf_get s tid t hget st hs]
                exact hstat
              rw [← hs3, hstp]
              exact ⟨rfl, fun hf => absurd hf (by decide)⟩
            · have hs2 : statusOf s tid = some st' := by
                have hs3 : ((modifyTask s.tasks hd
                    (markFailed ("Queue overflow"))).get? tid).map
                    (fun t0 => t0.status) = some st' := hs'2
                rw [modifyTask_get_other _ _ _ _ htid] at hs3
                exact hs3
              exact (statusOf_eq_absurd s tid st st' hs hs2 hne).elim
      · rw [if_neg hful] at hs'2
        have hs2 : statusOf s tid = some st' := hs'2
        exact (statusOf_eq_absurd s tid st st' hs hs2 hne).elim
  | clearPendingTasks =>
      have hs'2 : ((markAllFailed (markAllFailed s.tasks s.pending
          "Task cleared by user") s.activeIds ("Task cancelled by user")).get? tid).map
          (fun t0 => t0.status) = some st' := hs'
      rw [markAllFailed_get] at hs'2
      by_cases hat : tid ∈ s.activeIds
      · rw [if_pos hat] at hs'2
        rw [markAllFailed_get] at hs'2
        by_cases hpd : tid ∈ s.pending
        · exact absurd hat (h.hdisj tid hpd)
        · rw [if_neg hpd] at hs'2
          obtain ⟨t, hget, hstat⟩ := h.hact tid hat
          rw [hget] at hs'2
          simp only [Option.map_some', Option.some.injEq] at hs'2
          have hstt : t.status = st := statusOf_get s tid t hget st hs
          have hstf : st' = TaskStatus.failed := by
            rw [← hs'2]
            rfl
          rcases hstat with hp1 | hp1
          · rw [hstt] at hp1
            rw [hp1, hstf]
            exact ⟨rfl, fun hf => absurd hf (by decide)⟩
          · rw [hstt] at hp1
            exact absurd (hp1.trans hstf.symm) hne
      · rw [if_neg hat] at hs'2
        rw [markAllFailed_get] at hs'2
        by_cases hpd : tid ∈ s.pending
        · rw [if_pos hpd] at hs'2
          obtain ⟨t, hget, hstat⟩ := h.hpend tid hpd
          rw [hget] at hs'2
          simp only [Option.map_some', Option.some.injEq] at hs'2
          have hstt : st = TaskStatus.pending := by
            rw [← statusOf_get s tid t hget st hs]
            exact hstat
          have hstf : st' = TaskStatus.failed := by
            rw [← hs'2]
            rfl
          rw [hstt, hstf]
          exact ⟨rfl, fun hf => absurd hf (by decide)⟩
        · rw [if_neg hpd] at hs'2
          have hs2 : statusOf s tid = some st' := hs'2
          exact (statusOf_eq_absurd s tid st st' hs hs2 hne).elim

theorem evictIfFull_tasks_length (s : QState) :
    (evictIfFull s).tasks.length = s.tasks.length := by
  unfold evictIfFull
  by_cases hful : s.cfg.maxConcurrent ≤ s.pending.length
  · rw [if_pos hful]
    cases hp : s.pending with
    | nil => rfl
    | cons hd rest =>
        simp only
        exact modifyTask_length _ _ _
  · rw [if_neg hful]

theorem evictIfFull_completedIds (s : QState) :
    (evictIfFull s).completedIds = s.completedIds := by
  unfold evictIfFull
  by_cases hful : s.cfg.maxConcurrent ≤ s.pending.length
  · rw [if_pos hful]
    cases hp : s.pending with
    | nil => rfl
    | cons hd rest => rfl
  · rw [if_neg hful]

/-- Concrete scheduler configurations and traces used by the witnesses
and counterexamples below. -/
def cfgEx : QConfig := ⟨3, 45, true, true⟩

def cfgCap1 : QConfig := ⟨1, 45, true, true⟩

/-- Two adds against capacity 1: the second evicts the first. -/
def evictActs : List QAction :=
  [QAction.addTask ['a'] ['e'] none, QAction.addTask ['b'] ['e'] none]

/-- One add, 46 seconds pass, a worker pulls the stale task. -/
def staleActs : List QAction :=
  [QAction.addTask ['a'] ['e'] none, QAction.tick 46, QAction.pickTask]

/-- One task picked up and translated; then the user clears while the
synthesis call is still suspended. -/
def cancelActs : List QAction :=
  [QAction.addTask ['h'] ['e'] none, QAction.pickTask,
   QAction.translateReturn 0 ['b'], QAction.clearPendingTasks]

/-- One task driven through the whole success path. -/
def completeActs : List QAction :=
  [QAction.addTask ['h'] ['e'] none, QAction.pickTask,
   QAction.translateReturn 0 ['b'], QAction.synthChunk 0 false,
   QAction.synthChunk 0 true, QAction.synthReturn 0 (some 3)]

/-- C1 witness: a worker picking a fresh task makes the allowed
PENDING → PROCESSING edge. -/
theorem status_transitions_witness :
    allowedEdge TaskStatus.pending TaskStatus.processing = true ∧
    (TaskStatus.pending = TaskStatus.failed →
      ∃ pc, (0, pc) ∈ (runQ cfgEx [QAction.addTask ['h'] ['e'] none]).inflight) :=
  status_transitions cfgEx [QAction.addTask ['h'] ['e'] none] QAction.pickTask 0
    TaskStatus.pending TaskStatus.processing (by decide) (by decide) (by decide)

/-- C1 counterexample: `clear_pending_tasks` marks the in-flight task 0
FAILED (terminal) while its synthesis call is suspended; when the call
later returns, `_process_task` sets the task COMPLETED, leaving the
terminal state.  The completion is not discarded. -/
theorem clear_then_complete_counterexample :
    statusOf (runQ cfgEx cancelActs) 0 = some TaskStatus.failed ∧
    statusOf (runQ cfgEx (cancelActs ++ [QAction.synthReturn 0 (some 5)])) 0 =
      some TaskStatus.completed := by decide

/-- C2: with the translation callback registered, every audio-chunk
callback of a task is preceded (chronologically, the trace is stored
newest first) by the awaited translation-completed callback of the same
task, on every path. -/
theorem translation_before_audio (cfg : QConfig) (acts : List QAction)
    (h : cfg.translationCallbackSet = true) :
    chunkTraceOk (runQ cfg acts).trace := by
  refine (qinv_runQ cfg acts).hchunk ?_
  rw [runQ_cfg]
  exact h

/-- C2 witness: a run with translation and chunk callbacks. -/
theorem translation_before_audio_witness :
    chunkTraceOk (runQ cfgEx completeActs).trace :=
  translation_before_audio cfgEx completeActs rfl

/-- C4: `add_task` always admits the new task (its id is the next store
index and it is PENDING afterwards); the pending count reported by
`get_queue_stats` never exceeds the capacity `max_concurrent`, before or
after the add; and when the queue is at capacity the oldest pending task
(the queue head) is the one evicted: it is marked FAILED with error text
Queue overflow and removed, and the queue afterwards is the old tail
plus the new task. -/
theorem add_task_overflow (cfg : QConfig) (acts : List QAction)
    (text tl : List Char) (timeout : Option Nat)
    (hcap : 1 ≤ cfg.maxConcurrent) :
    (getQueueStats (runQ cfg acts)).pendingCount ≤ cfg.maxConcurrent ∧
    (getQueueStats (step (runQ cfg acts)
        (QAction.addTask text tl timeout))).pendingCount ≤ cfg.maxConcurrent ∧
    statusOf (step (runQ cfg acts) (QAction.addTask text tl timeout))
        (runQ cfg acts).tasks.length = some TaskStatus.pending ∧
    (cfg.maxConcurrent ≤ (runQ cfg acts).pending.length →
      ∃ hd rest, (runQ cfg acts).pending = hd :: rest ∧
        statusOf (step (runQ cfg acts) (QAction.addTask text tl timeout)) hd =
          some TaskStatus.failed ∧
        ((step (runQ cfg acts) (QAction.addTask text tl timeout)).tasks.get? hd).map
          (fun t => t.error) = some (some ("Queue overflow")) ∧
        (step (runQ cfg acts) (QAction.addTask text tl timeout)).pending =
          rest ++ [(runQ cfg acts).tasks.length]) := by
  have h : QInv (runQ cfg acts) := qinv_runQ cfg acts
  have hcfg : (runQ cfg acts).cfg = cfg := runQ_cfg cfg acts
  have h' : QInv (step (runQ cfg acts) (QAction.addTask text tl timeout)) :=
    qinv_step _ _ h
  have hcfg' : (step (runQ cfg acts) (QAction.addTask text tl timeout)).cfg = cfg := by
    show ([QAction.addTask text tl timeout].foldl step (runQ cfg acts)).cfg = cfg
    rw [runQ_cfg_foldl]
    exact hcfg
  set s := runQ cfg acts with hsdef
  have hlen1 : (evictIfFull (cleanupOldTasks s)).tasks.length = s.tasks.length :=
    evictIfFull_tasks_length (cleanupOldTasks s)
  refine ⟨?_, ?_, ?_, ?_⟩
  · show s.pending.length ≤ cfg.maxConcurrent
    rw [← hcfg]
    exact h.hbound (hcfg ▸ hcap)
  · show (step s (QAction.addTask text tl timeout)).pending.length ≤ cfg.maxConcurrent
    rw [← hcfg']
    exact h'.hbound (hcfg' ▸ hcap)
  · show statusOf (stepAddTask s text tl timeout) s.tasks.length =
      some TaskStatus.pending
    show (((evictIfFull (cleanupOldTasks s)).tasks ++ [_]).get? s.tasks.length).map
      (fun t : TranslationTask => t.status) = some TaskStatus.pending
    rw [← hlen1, List.get?_concat_length]
    rfl
  · intro hful
    cases hp : s.pending with
    | nil =>
        rw [hp] at hful
        simp only [List.length_nil] at hful
        have hz : cfg.maxConcurrent = 0 := Nat.le_antisymm hful (Nat.zero_le _)
        rw [hz] at hcap
        cases hcap
    | cons hd rest =>
        have hp2 : s.pending = hd :: rest := hp
        obtain ⟨t, hget, hstat⟩ := h.hpend hd
          (by rw [hp2]; exact List.mem_cons_self hd rest)
        have hhdlt : hd < s.tasks.length := get?_some_lt hget
        have hfulc : (cleanupOldTasks s).cfg.maxConcurrent ≤
            (cleanupOldTasks s).pending.length := by
          show s.cfg.maxConcurrent ≤ s.pending.length
          rw [hcfg, hp2]
          rw [hp2] at hful
          exact hful
        have hpc : (cleanupOldTasks s).pending = hd :: rest := hp2
        have hevtasks : (evictIfFull (cleanupOldTasks s)).tasks =
            modifyTask s.tasks hd (markFailed ("Queue overflow")) := by
          unfold evictIfFull
          rw [if_pos hfulc, hpc]
          rfl
        have hevpend : (evictIfFull (cleanupOldTasks s)).pending = rest := by
          unfold evictIfFull
          rw [if_pos hfulc, hpc]
        have hgethd : (stepAddTask s text tl timeout).tasks.get? hd =
            some (markFailed ("Queue overflow") t) := by
          show ((evictIfFull (cleanupOldTasks s)).tasks ++ [_]).get? hd = _
          rw [List.get?_append (by rw [hlen1]; exact hhdlt), hevtasks,
            modifyTask_get_self, hget]
          rfl
        refine ⟨hd, rest, rfl, ?_, ?_, ?_⟩
        · show ((stepAddTask s text tl timeout).tasks.get? hd).map
            (fun t0 : TranslationTask => t0.status) = some TaskStatus.failed
          rw [hgethd]
          rfl
        · show ((stepAddTask s text tl timeout).tasks.get? hd).map
            (fun t0 : TranslationTask => t0.error) = some (some ("Queue overflow"))
          rw [hgethd]
          rfl
        · show (evictIfFull (cleanupOldTasks s)).pending ++
            [(evictIfFull (cleanupOldTasks s)).tasks.length] =
            rest ++ [s.tasks.length]
          rw [hlen1, hevpend]

/-- C4 witness: with capacity 1bounds hold on a concrete run. -/
theorem add_task_overflow_witness :
    (getQueueStats (runQ cfgCap1 [QAction.addTask ['a'] ['e'] none])).pendingCount ≤
      cfgCap1.maxConcurrent :=
  (add_task_overflow cfgCap1 [QAction.addTask ['a'] ['e'] none]
    ['b'] ['e'] none (by decide)).1

/-- C5 amended: a task that reaches COMPLETED has all three timestamps
set, with `completed_at ≥ started_at ≥ created_at`.  (FAILED and TIMEOUT
tasks may lack `started_at` or `completed_at` — see the
counterexample.) -/
theorem completed_timestamps (cfg : QConfig) (acts : List QAction) (tid : Nat)
    (hc : statusOf (runQ cfg acts) tid = some TaskStatus.completed) :
    ∃ t st ct, (runQ cfg acts).tasks.get? tid = some t ∧
      t.startedAt = some st ∧ t.completedAt = some ct ∧
      t.createdAt ≤ st ∧ st ≤ ct := by
  have h : QInv (runQ cfg acts) := qinv_runQ cfg acts
  unfold statusOf at hc
  cases hget : (runQ cfg acts).tasks.get? tid with
  | none => rw [hget] at hc; cases hc
  | some t =>
      rw [hget] at hc
      simp only [Option.map_some', Option.some.injEq] at hc
      obtain ⟨-, -, c3⟩ := h.htime t (List.get?_mem hget)
      obtain ⟨st, ct, d1, d2, d3, d4⟩ := c3 hc
      exact ⟨t, st, ct, rfl, d1, d2, d3, d4⟩

/-- C5 witness: the completed task of the concrete success run. -/
theorem completed_timestamps_witness :
    ∃ t st ct, (runQ cfgEx completeActs).tasks.get? 0 = some t ∧
      t.startedAt = some st ∧ t.completedAt = some ct ∧
      t.createdAt ≤ st ∧ st ≤ ct :=
  completed_timestamps cfgEx completeActs 0 (by decide)

/-- C5 counterexample: a task evicted on queue overflow is terminal
(FAILED) with `started_at` and `completed_at` both unset, refuting the
claim that completed_at ≥ started_at ≥ created_at with all three set for
every terminal task.  (TIMEOUT before processing likewise leaves them
unset.) -/
theorem terminal_timestamps_counterexample :
    statusOf (runQ cfgCap1 evictActs) 0 = some TaskStatus.failed ∧
    ((runQ cfgCap1 evictActs).tasks.get? 0).map (fun t => t.startedAt) =
      some none ∧
    ((runQ cfgCap1 evictActs).tasks.get? 0).map (fun t => t.completedAt) =
      some none := by decide

/-- C6 amended: a task is queryable exactly while `active_tasks` or
`completed_tasks` references it.  Every task in `completed_tasks` yields
a snapshot; a task whose `_process_task` coroutine finishes (here: the
synthesis-return path) lands in `completed_tasks`; and an entry leaves
`completed_tasks` only through `clear_pending_tasks` or through the lazy
cleanup of a later `add_task` once the age since creation exceeds the
300 second retention window.  Tasks evicted on overflow or timed out
before processing are never stored, hence immediately not found — see
the counterexample. -/
theorem retention (cfg : QConfig) (acts : List QAction) :
    (∀ tid, tid ∈ (runQ cfg acts).completedIds →
      (getTaskStatus (runQ cfg acts) tid).isSome = true) ∧
    (∀ tid audio, (tid, WorkerPc.atSynthesize) ∈ (runQ cfg acts).inflight →
      tid ∈ (step (runQ cfg acts) (QAction.synthReturn tid audio)).completedIds) ∧
    (∀ tid a, tid ∈ (runQ cfg acts).completedIds →
      tid ∉ (step (runQ cfg acts) a).completedIds →
      a = QAction.clearPendingTasks ∨
      (∃ text tl timeout t, a = QAction.addTask text tl timeout ∧
        (runQ cfg acts).tasks.get? tid = some t ∧
        300 < (runQ cfg acts).now - t.createdAt)) := by
  have h : QInv (runQ cfg acts) := qinv_runQ cfg acts
  set s := runQ cfg acts with hsdef
  clear_value s
  clear hsdef
  refine ⟨?_, ?_, ?_⟩
  · intro tid htid
    unfold getTaskStatus
    by_cases hat : tid ∈ s.activeIds
    · rw [if_pos hat]
      obtain ⟨t, hget, -⟩ := h.hact tid hat
      rw [hget]
      rfl
    · rw [if_neg hat, if_pos htid]
      have hlt := h.hcompl tid htid
      cases hget : s.tasks.get? tid with
      | none =>
          rw [List.get?_eq_none] at hget
          exact absurd hget (Nat.not_le_of_lt hlt)
      | some t => rfl
  · intro tid audio hg
    show tid ∈ (stepSynthReturn s tid audio).completedIds
    unfold stepSynthReturn
    rw [if_pos hg]
    show tid ∈ (if tid ∈ s.completedIds then s.completedIds
      else tid :: s.completedIds)
    by_cases hc : tid ∈ s.completedIds
    · rw [if_pos hc]; exact hc
    · rw [if_neg hc]; exact List.mem_cons_self _ _
  · intro tid a htid hnot
    have hsup : ∀ (tid0 : Nat) (f : TranslationTask → TranslationTask),
        tid ∈ (finishTask s tid0 f).completedIds := by
      intro tid0 f
      show tid ∈ (if tid0 ∈ s.completedIds then s.completedIds
        else tid0 :: s.completedIds)
      by_cases hc : tid0 ∈ s.completedIds
      · rw [if_pos hc]; exact htid
      · rw [if_neg hc]; exact List.mem_cons_of_mem _ htid
    cases a with
    | tick dt => exact absurd htid hnot
    | clearPendingTasks => exact Or.inl rfl
    | pickTask =>
        exfalso
        apply hnot
        show tid ∈ (stepPickTask s).completedIds
        unfold stepPickTask
        cases hp : s.pending with
        | nil => exact htid
        | cons hd rest =>
            simp only
            cases hget : s.tasks.get? hd with
            | none => exact htid
            | some t =>
                simp only
                by_cases hstale : t.timeoutSeconds < s.now - t.createdAt
                · rw [if_pos hstale]; exact htid
                · rw [if_neg hstale]; exact htid
    | synthChunk tid0 final =>
        exfalso
        apply hnot
        show tid ∈ (stepSynthChunk s tid0 final).completedIds
        unfold stepSynthChunk
        by_cases hg : (tid0, WorkerPc.atSynthesize) ∈ s.inflight
        · rw [if_pos hg]
          by_cases hac : s.cfg.audioChunkCallbackSet = true
          · rw [if_pos hac]; exact htid
          · rw [if_neg hac]; exact htid
        · rw [if_neg hg]; exact htid
    | translateReturn tid0 tr =>
        exfalso
        apply hnot
        show tid ∈ (stepTranslateReturn s tid0 tr).completedIds
        unfold stepTranslateReturn
        by_cases hg : (tid0, WorkerPc.atTranslate) ∈ s.inflight
        · rw [if_pos hg]
          by_cases hemp : translationEmptyCheck tr = true
          · rw [if_pos hemp]
            exact hsup tid0 _
          · rw [if_neg hemp]
            by_cases htc : s.cfg.translationCallbackSet = true
            · rw [if_pos htc]; exact htid
            · rw [if_neg htc]; exact htid
        · rw [if_neg hg]; exact htid
    | translateRaise tid0 msg =>
        exfalso
        apply hnot
        show tid ∈ (stepTranslateRaise s tid0 msg).completedIds
        unfold stepTranslateRaise
        by_cases hg : (tid0, WorkerPc.atTranslate) ∈ s.inflight
        · rw [if_pos hg]; exact hsup tid0 _
        · rw [if_neg hg]; exact htid
    | translateTimeout tid0 =>
        exfalso
        apply hnot
        show tid ∈ (stepTranslateTimeout s tid0).completedIds
        unfold stepTranslateTimeout
        by_cases hg : (tid0, WorkerPc.atTranslate) ∈ s.inflight
        · rw [if_pos hg]; exact hsup tid0 _
        · rw [if_neg hg]; exact htid
    | synthReturn tid0 audio =>
        exfalso
        apply hnot
        show tid ∈ (stepSynthReturn s tid0 audio).completedIds
        unfold stepSynthReturn
        by_cases hg : (tid0, WorkerPc.atSynthesize) ∈ s.inflight
        · rw [if_pos hg]; exact hsup tid0 _
        · rw [if_neg hg]; exact htid
    | synthRaise tid0 msg =>
        exfalso
        apply hnot
        show tid ∈ (stepSynthRaise s tid0 msg).completedIds
        unfold stepSynthRaise
        by_cases hg : (tid0, WorkerPc.atSynthesize) ∈ s.inflight
        · rw [if_pos hg]; exact hsup tid0 _
        · rw [if_neg hg]; exact htid
    | synthTimeout tid0 =>
        exfalso
        apply hnot
        show tid ∈ (stepSynthTimeout s tid0).completedIds
        unfold stepSynthTimeout
        by_cases hg : (tid0, WorkerPc.atSynthesize) ∈ s.inflight
        · rw [if_pos hg]; exact hsup tid0 _
        · rw [if_neg hg]; exact htid
    | addTask text tl timeout =>
        right
        have hcompIds : (step s (QAction.addTask text tl timeout)).completedIds =
            (cleanupOldTasks s).completedIds := by
          show (appendNew (evictIfFull (cleanupOldTasks s)) text tl timeout).completedIds = _
          show (evictIfFull (cleanupOldTasks s)).completedIds = _
          rw [evictIfFull_completedIds]
        rw [hcompIds] at hnot
        have hnot2 : tid ∉ s.completedIds.filter (fun tid0 =>
            match s.tasks.get? tid0 with
            | some t => !(decide (300 < s.now - t.createdAt))
            | none => true) := hnot
        cases hget : s.tasks.get? tid with
        | none =>
            exfalso
            apply hnot2
            rw [List.mem_filter]
            refine ⟨htid, ?_⟩
            rw [hget]
        | some t =>
            refine ⟨text, tl, timeout, t, rfl, rfl, ?_⟩
            by_contra hage
            apply hnot2
            rw [List.mem_filter]
            refine ⟨htid, ?_⟩
            rw [hget]
            simp only [Bool.not_eq_true']
            rw [decide_eq_false hage]

/-- C6 amended witness: the completed task of the success run is
queryable. -/
theorem retention_witness :
    (getTaskStatus (runQ cfgEx completeActs) 0).isSome = true :=
  (retention cfgEx completeActs).1 0 (by decide)

/-- C6 counterexample: the task evicted on queue overflow and the task
timed out before processing are both terminal, yet `get_task_status`
returns not-found immediately (they are never stored in `active_tasks`
or `completed_tasks`), refuting the claim that every task reaching a
terminal state remains queryable for the retention window. -/
theorem retention_counterexample :
    statusOf (runQ cfgCap1 evictActs) 0 = some TaskStatus.failed ∧
    getTaskStatus (runQ cfgCap1 evictActs) 0 = none ∧
    statusOf (runQ cfgEx staleActs) 0 = some TaskStatus.timeout ∧
    getTaskStatus (runQ cfgEx staleActs) 0 = none := by decide

end Interp
